import Mathlib

/-!
Verification of the Dreamer/lucid creative-assistant services.

Shallow embedding of three source files:
* `services/enhancedGeminiService.ts` (error sanitizer, enhanced provider wrappers,
  text-to-speech stats),
* `services/moduleCollaborationService.ts` (casting+visual collaboration service),
* the sound+visual variant of the collaboration service.

Strings are modelled as `List Char`; JS `String.prototype.includes` is the
executable substring test `containsTok`; the regexes of the sanitizer are
modelled by dedicated scanners that mirror the semantics of JS
`String.prototype.replace` with a global regex (leftmost match, greedy
quantifiers with backtracking, `\b` word boundaries computed on the original
string, scanning resuming after each replacement).
-/

namespace Spec2Proof

/-! Section: Character classes (JS `\w` and the token class `[0-9A-Za-z\-_]`) -/

/-- JS word character `\w` = `[0-9A-Za-z_]` (ASCII). -/
def isWordChar (c : Char) : Bool := c.isAlphanum || c == '_'

/-- The sanitizer token class `[0-9A-Za-z\-_]`. -/
def isClassChar (c : Char) : Bool := isWordChar c || c == '-'

/-! Section: Substring containment, mirroring JS `String.prototype.includes` -/

/-- Substring test: `containsTok t s` decides whether `t` occurs as a contiguous substring of `s`. -/
def containsTok (t : List Char) : List Char → Bool
  | [] => t.isEmpty
  | c :: s => t.isPrefixOf (c :: s) || containsTok t s

theorem containsTok_eq_true_iff (t s : List Char) :
    containsTok t s = true ↔ t <:+: s := by
  induction s with
  | nil =>
    simp only [containsTok, List.isEmpty_iff]
    constructor
    · rintro rfl; exact List.infix_rfl
    · rintro ⟨u, v, huv⟩
      have h1 := List.append_eq_nil.mp huv
      exact (List.append_eq_nil.mp h1.1).2
  | cons c s ih =>
    simp only [containsTok, Bool.or_eq_true, List.isPrefixOf_iff_prefix, ih]
    constructor
    · rintro (h | h)
      · exact h.isInfix
      · obtain ⟨u, v, huv⟩ := h
        exact ⟨c :: u, v, by simp [huv]⟩
    · rintro ⟨u, v, huv⟩
      cases u with
      | nil => exact Or.inl ⟨v, by simpa using huv⟩
      | cons a u =>
        injection huv with h1 h2
        exact Or.inr ⟨u, v, h2⟩

/-! Section: Shared enumerations of the collaboration services -/

inductive Relevance | high | medium | low
deriving DecidableEq, Repr

inductive Priority | high | medium | low
deriving DecidableEq, Repr

inductive SuggestionType | sync | contrast | enhance | balance
deriving DecidableEq, Repr

/-- The `CrossModuleSuggestion` record of both collaboration services (`modules` is `string[]`
in the source, so it is a list of module-name strings here). -/
structure CrossModuleSuggestion where
  type : SuggestionType
  modules : List (List Char)
  suggestion : List Char
  rationale : List Char
  priority : Priority
deriving DecidableEq, Repr

/-- The `priorityOrder` table of `getCrossModuleSuggestions`: high=3, medium=2, low=1. -/
def priorityOrder : Priority → Nat
  | Priority.high => 3
  | Priority.medium => 2
  | Priority.low => 1

/-- One step of the stable descending sort performed by
`crossModuleSuggestions.sort((a, b) => priorityOrder[b.priority] - priorityOrder[a.priority])`.
`insertSug` inserts an element that occurred earlier in the array in front of the
first element of no greater rank, which keeps equal-rank elements in their
original relative order (JS `Array.prototype.sort` is stable per ES2019). -/
def insertSug (x : CrossModuleSuggestion) : List CrossModuleSuggestion → List CrossModuleSuggestion
  | [] => [x]
  | y :: ys =>
    if priorityOrder y.priority ≤ priorityOrder x.priority then x :: y :: ys
    else y :: insertSug x ys

/-- The stable descending-by-priority sort used by `getCrossModuleSuggestions`. -/
def sortSuggestions : List CrossModuleSuggestion → List CrossModuleSuggestion
  | [] => []
  | x :: xs => insertSug x (sortSuggestions xs)

end Spec2Proof

namespace Spec2Proof.CV

/-! Section: The casting+visual `ModuleCollaborationService`
(`src/dreamer-app/src/services/moduleCollaborationService.ts`)
-/

inductive CVModule | casting | visual
deriving DecidableEq, Repr

/-- The `ModuleInsight` record of the casting+visual service.  The optional opaque
`sharedData` payload is never read by any operation and is modelled as an
optional string. -/
structure ModuleInsight where
  module : CVModule
  insight : List Char
  relevance : Relevance
  actionable : Bool
  sharedData : Option (List Char)
deriving DecidableEq, Repr

/-- Service state: the insight map (one ordered list per module key) and the
derived suggestion list. -/
structure ServiceState where
  castingInsights : List ModuleInsight
  visualInsights : List ModuleInsight
  crossModuleSuggestions : List CrossModuleSuggestion
deriving DecidableEq, Repr

def warmKw : List Char := ['w', 'a', 'r', 'm']
def goldenKw : List Char := ['g', 'o', 'l', 'd', 'e', 'n']
def seriousKw : List Char := ['s', 'e', 'r', 'i', 'o', 'u', 's']
def professionalKw : List Char :=
  ['p', 'r', 'o', 'f', 'e', 's', 's', 'i', 'o', 'n', 'a', 'l']
def themeKw : List Char := ['t', 'h', 'e', 'm', 'e']
def emotionKw : List Char := ['e', 'm', 'o', 't', 'i', 'o', 'n']

def visualStr : List Char := ['v', 'i', 's', 'u', 'a', 'l']
def castingStr : List Char := ['c', 'a', 's', 't', 'i', 'n', 'g']

def balanceSuggestionText : String :=
  "Balance serious character presence with warm visual color grading"
def balanceRationaleText : String :=
  "Warm colors can soften serious characters and create emotional depth"
def enhanceSuggestionText : String :=
  "Strengthen thematic coherence between visual storytelling and casting choices"
def enhanceRationaleText : String :=
  "Both modules highlight compatible emotional or thematic directions worth emphasizing"

/-- Rule `findVisualCastingBalance`: fires when some visual insight mentions
warm/golden and some casting insight mentions serious/professional. -/
def findVisualCastingBalance (visualInsights castingInsights : List ModuleInsight) :
    Option (List Char × List Char × Priority) :=
  let warmVisual := visualInsights.find? fun i =>
    containsTok warmKw i.insight || containsTok goldenKw i.insight
  let seriousCharacter := castingInsights.find? fun i =>
    containsTok seriousKw i.insight || containsTok professionalKw i.insight
  match warmVisual, seriousCharacter with
  | some _, some _ =>
    some (balanceSuggestionText.toList, balanceRationaleText.toList, Priority.medium)
  | _, _ => none

/-- Rule `findCastingVisualAlignment`: fires when at least two stored insights
overall mention theme/emotion. -/
def findCastingVisualAlignment (visualInsights castingInsights : List ModuleInsight) :
    Option (List Char × List Char × Priority) :=
  let themes :=
    (castingInsights.filter fun i =>
      containsTok themeKw i.insight || containsTok emotionKw i.insight) ++
    (visualInsights.filter fun i =>
      containsTok themeKw i.insight || containsTok emotionKw i.insight)
  if 2 ≤ themes.length then
    some (enhanceSuggestionText.toList, enhanceRationaleText.toList, Priority.high)
  else none

/-- Analysis `analyzeCrossModuleSynergies`: rebuilds the suggestion list from scratch,
pushing the balance rule result first, then the enhancement rule result. -/
def analyzeCrossModuleSynergies (castingInsights visualInsights : List ModuleInsight) :
    List CrossModuleSuggestion :=
  (match findVisualCastingBalance visualInsights castingInsights with
   | some (s, r, p) =>
     [{ type := SuggestionType.balance, modules := [visualStr, castingStr],
        suggestion := s, rationale := r, priority := p }]
   | none => []) ++
  (match findCastingVisualAlignment visualInsights castingInsights with
   | some (s, r, p) =>
     [{ type := SuggestionType.enhance, modules := [visualStr, castingStr],
        suggestion := s, rationale := r, priority := p }]
   | none => [])

/-- Operation `addModuleInsight`: appends the new insight to the list of its
module and synchronously re-runs the cross-module analysis. -/
def addModuleInsight (s : ServiceState) (module : CVModule) (insight : List Char)
    (relevance : Relevance) (sharedData : Option (List Char)) : ServiceState :=
  let newInsight : ModuleInsight :=
    { module := module, insight := insight, relevance := relevance,
      actionable := true, sharedData := sharedData }
  let castingInsights :=
    match module with
    | CVModule.casting => s.castingInsights ++ [newInsight]
    | CVModule.visual => s.castingInsights
  let visualInsights :=
    match module with
    | CVModule.casting => s.visualInsights
    | CVModule.visual => s.visualInsights ++ [newInsight]
  { castingInsights := castingInsights,
    visualInsights := visualInsights,
    crossModuleSuggestions := analyzeCrossModuleSynergies castingInsights visualInsights }

/-- Getter `getCrossModuleSuggestions`: the suggestion list sorted descending by priority. -/
def getCrossModuleSuggestions (s : ServiceState) : List CrossModuleSuggestion :=
  sortSuggestions s.crossModuleSuggestions

/-- Getter `getAllInsights`: concatenation of the per-module lists (JS `Map` iteration
order is key-insertion order; only counts of the result are ever used). -/
def getAllInsights (s : ServiceState) : List ModuleInsight :=
  s.castingInsights ++ s.visualInsights

/-- Operation `clearInsights`. -/
def clearInsights (_s : ServiceState) : ServiceState :=
  { castingInsights := [], visualInsights := [], crossModuleSuggestions := [] }

/-- The freshly constructed singleton state. -/
def initState : ServiceState :=
  { castingInsights := [], visualInsights := [], crossModuleSuggestions := [] }

def strengthsTexts : List (List Char) :=
  [("Multiple AI modules providing insights").toList,
   ("Cross-module collaboration active").toList,
   ("Diverse perspectives enhancing storytelling").toList]
def limitedInteractionText : String := "Limited cross-module interaction detected"
def multipleHighPriorityText : String := "Multiple high-priority improvements suggested"

structure CoherenceReport where
  score : Int
  strengths : List (List Char)
  weaknesses : List (List Char)
  recommendations : List (List Char)
deriving DecidableEq, Repr

/-- Scoring `analyzeProjectCoherence`: base 50, +10 per high-relevance insight, +5 per
high-priority suggestion, −3 per low-priority suggestion, clamped to [0,100];
plus fixed strengths, derived weaknesses and the top-3 suggestion texts. -/
def analyzeProjectCoherence (s : ServiceState) : CoherenceReport :=
  let allInsights := getAllInsights s
  let suggestions := getCrossModuleSuggestions s
  let highRelevanceInsights :=
    (allInsights.filter fun i => i.relevance == Relevance.high).length
  let highPrioritySuggestions :=
    (suggestions.filter fun x => x.priority == Priority.high).length
  let lowPrioritySuggestions :=
    (suggestions.filter fun x => x.priority == Priority.low).length
  let coherenceScore : Int :=
    50 + (highRelevanceInsights : Int) * 10
       + (highPrioritySuggestions : Int) * 5
       - (lowPrioritySuggestions : Int) * 3
  let coherenceScore := max 0 (min 100 coherenceScore)
  { score := coherenceScore,
    strengths := strengthsTexts,
    weaknesses :=
      (if suggestions.length = 0 then [limitedInteractionText.toList] else []) ++
      (if 2 < highPrioritySuggestions then [multipleHighPriorityText.toList] else []),
    recommendations := (suggestions.take 3).map (·.suggestion) }

/-- Reachable states of the service: the initial singleton state, and anything
produced from a reachable state by `addModuleInsight` or `clearInsights`. -/
inductive Reachable : ServiceState → Prop
  | init : Reachable initState
  | add (s : ServiceState) (m : CVModule) (insight : List Char) (relevance : Relevance)
      (sharedData : Option (List Char)) :
      Reachable s → Reachable (addModuleInsight s m insight relevance sharedData)
  | clear (s : ServiceState) : Reachable s → Reachable (clearInsights s)

end Spec2Proof.CV

namespace Spec2Proof.SV

/-! Section: The sound+visual `ModuleCollaborationService`
(second variant, same repository)
-/

inductive SVModule | sound | visual
deriving DecidableEq, Repr

structure ModuleInsight where
  module : SVModule
  insight : List Char
  relevance : Relevance
  actionable : Bool
  sharedData : Option (List Char)
deriving DecidableEq, Repr

structure ServiceState where
  soundInsights : List ModuleInsight
  visualInsights : List ModuleInsight
  crossModuleSuggestions : List CrossModuleSuggestion
deriving DecidableEq, Repr

def moodKw : List Char := ['m', 'o', 'o', 'd']
def atmosphereKw : List Char := ['a', 't', 'm', 'o', 's', 'p', 'h', 'e', 'r', 'e']
def lightingKw : List Char := ['l', 'i', 'g', 'h', 't', 'i', 'n', 'g']
def colorKw : List Char := ['c', 'o', 'l', 'o', 'r']
def energyKw : List Char := ['e', 'n', 'e', 'r', 'g', 'y']
def intensityKw : List Char := ['i', 'n', 't', 'e', 'n', 's', 'i', 't', 'y']
def movementKw : List Char := ['m', 'o', 'v', 'e', 'm', 'e', 'n', 't']
def cameraKw : List Char := ['c', 'a', 'm', 'e', 'r', 'a']
def themeKw : List Char := ['t', 'h', 'e', 'm', 'e']
def emotionKw : List Char := ['e', 'm', 'o', 't', 'i', 'o', 'n']

def soundStr : List Char := ['s', 'o', 'u', 'n', 'd']
def visualStr : List Char := ['v', 'i', 's', 'u', 'a', 'l']

def syncMoodSuggestionText : String :=
  "Align sound atmosphere with visual mood for cohesive storytelling"
def syncMoodRationaleText : String :=
  "Both sound and visual elements suggest similar atmospheric qualities"
def syncEnergySuggestionText : String :=
  "Synchronize audio intensity with visual camera movement"
def syncEnergyRationaleText : String :=
  "Both elements indicate matching energy levels for dynamic sequences"
def svEnhanceSuggestionText : String :=
  "Strengthen thematic coherence between audio and visual storytelling"
def svEnhanceRationaleText : String :=
  "Both sound and visual modules highlight similar thematic or emotional cues"

/-- Rule `findSoundVisualSync`: mood/atmosphere against lighting/color first, then
energy/intensity against movement/camera; both alternatives yield priority high. -/
def findSoundVisualSync (soundInsights visualInsights : List ModuleInsight) :
    Option (List Char × List Char × Priority) :=
  let soundMood := soundInsights.find? fun i =>
    containsTok moodKw i.insight || containsTok atmosphereKw i.insight
  let visualMood := visualInsights.find? fun i =>
    containsTok lightingKw i.insight || containsTok colorKw i.insight
  match soundMood, visualMood with
  | some _, some _ =>
    some (syncMoodSuggestionText.toList, syncMoodRationaleText.toList, Priority.high)
  | _, _ =>
    let soundEnergy := soundInsights.find? fun i =>
      containsTok energyKw i.insight || containsTok intensityKw i.insight
    let visualEnergy := visualInsights.find? fun i =>
      containsTok movementKw i.insight || containsTok cameraKw i.insight
    match soundEnergy, visualEnergy with
    | some _, some _ =>
      some (syncEnergySuggestionText.toList, syncEnergyRationaleText.toList, Priority.high)
    | _, _ => none

/-- Rule `findSoundVisualEnhancement`: at least two theme/emotion insights overall. -/
def findSoundVisualEnhancement (soundInsights visualInsights : List ModuleInsight) :
    Option (List Char × List Char × Priority) :=
  let themes :=
    (soundInsights.filter fun i =>
      containsTok themeKw i.insight || containsTok emotionKw i.insight) ++
    (visualInsights.filter fun i =>
      containsTok themeKw i.insight || containsTok emotionKw i.insight)
  if 2 ≤ themes.length then
    some (svEnhanceSuggestionText.toList, svEnhanceRationaleText.toList, Priority.high)
  else none

/-- Analysis `analyzeCrossModuleSynergies` of the sound+visual service. -/
def analyzeCrossModuleSynergies (soundInsights visualInsights : List ModuleInsight) :
    List CrossModuleSuggestion :=
  (match findSoundVisualSync soundInsights visualInsights with
   | some (s, r, p) =>
     [{ type := SuggestionType.sync, modules := [soundStr, visualStr],
        suggestion := s, rationale := r, priority := p }]
   | none => []) ++
  (match findSoundVisualEnhancement soundInsights visualInsights with
   | some (s, r, p) =>
     [{ type := SuggestionType.enhance, modules := [soundStr, visualStr],
        suggestion := s, rationale := r, priority := p }]
   | none => [])

/-- Operation `addModuleInsight` of the sound+visual service. -/
def addModuleInsight (s : ServiceState) (module : SVModule) (insight : List Char)
    (relevance : Relevance) (sharedData : Option (List Char)) : ServiceState :=
  let newInsight : ModuleInsight :=
    { module := module, insight := insight, relevance := relevance,
      actionable := true, sharedData := sharedData }
  let soundInsights :=
    match module with
    | SVModule.sound => s.soundInsights ++ [newInsight]
    | SVModule.visual => s.soundInsights
  let visualInsights :=
    match module with
    | SVModule.sound => s.visualInsights
    | SVModule.visual => s.visualInsights ++ [newInsight]
  { soundInsights := soundInsights,
    visualInsights := visualInsights,
    crossModuleSuggestions := analyzeCrossModuleSynergies soundInsights visualInsights }

def initState : ServiceState :=
  { soundInsights := [], visualInsights := [], crossModuleSuggestions := [] }

end Spec2Proof.SV

namespace Spec2Proof

/-! Section: Text-to-speech service and `getEnhancedServiceStats`
(`enhancedGeminiService.ts`)
-/

/-- The host environment as seen by the `TextToSpeechService` constructor:
whether `window.speechSynthesis` exists, and the installed voices. -/
structure HostEnv where
  hasSpeechSynthesis : Bool
  installedVoices : List (List Char)
deriving DecidableEq, Repr

structure TextToSpeechService where
  synth : Option (List (List Char))
  voices : List (List Char)
deriving DecidableEq, Repr

/-- The `TextToSpeechService` constructor (plus `loadVoices`): takes hold of
`speechSynthesis` when the environment provides it, else leaves `synth` null. -/
def mkTextToSpeechService (env : HostEnv) : TextToSpeechService :=
  if env.hasSpeechSynthesis then
    { synth := some env.installedVoices, voices := env.installedVoices }
  else
    { synth := none, voices := [] }

/-- Singleton `const ttsService = new TextToSpeechService()`: a JS binding that could in
principle be null is modelled as an `Option`; this one always holds an object. -/
def ttsService (env : HostEnv) : Option TextToSpeechService :=
  some (mkTextToSpeechService env)

structure ServiceStats where
  ttsAvailable : Bool
  availableVoices : Nat
deriving DecidableEq, Repr

/-- Stats `getEnhancedServiceStats`: `ttsAvailable: ttsService !== null` and
`availableVoices: ttsService?.getAvailableVoices().length || 0`.
(The `timestamp` field is wall-clock time and is not modelled.) -/
def getEnhancedServiceStats (env : HostEnv) : ServiceStats :=
  { ttsAvailable := (ttsService env).isSome,
    availableVoices :=
      match ttsService env with
      | some t => t.voices.length
      | none => 0 }

end Spec2Proof

namespace Spec2Proof

/-! Section: Enhanced provider wrappers (`enhancedGeminiService.ts`) -/

/-- Decimal rendering of a count, as JS string interpolation of a number. -/
def natChars (n : Nat) : List Char := (Nat.repr n).toList

def commaSep : List Char := [',', ' ']
def slashSep : List Char := ['/']

def ambientTag : String := "ambient"
def analysisErrorReasoning : String := "Using default ambient mood due to analysis error."
def soundErrorDescription : String := "Sound generation encountered an error."
def foleyErrorInsights : String := "Foley generation encountered an error."

def reasoningA : String := "Based on the scene description \""
def reasoningB : String := "...\" and visual mood \""
def reasoningC : String := "\", the AI has identified "
def reasoningD : String := " primary audio moods: "
def reasoningE : String :=
  ". This selection creates an immersive soundscape that enhances the emotional impact of the scene."

def soundDescA : String := "Generated "
def soundDescB : String := " professional sound suggestions optimized for "
def soundDescC : String := " mood with "
def soundDescD : String := " camera movement and "
def soundDescE : String :=
  " lighting. Each suggestion is carefully crafted to enhance the cinematic experience."

def foleyInsightsA : String := "Generated "
def foleyInsightsB : String := " foley suggestions for "
def foleyInsightsC : String :=
  " character(s). These sound effects add realistic layers to character movements and interactions, creating a more immersive audio experience."

/-- Wrapper `analyzeSoundMoodEnhanced`: passes through the provider result with a
generated reasoning string; on provider failure falls back to moods
`[ambient]` and a fixed reasoning (the provider error is only logged, after
sanitization, and never returned). -/
def analyzeSoundMoodEnhanced (sceneDescription visualMood : List Char)
    (provider : Except (List Char) (List (List Char))) :
    List (List Char) × List Char :=
  match provider with
  | Except.ok moods =>
    (moods,
      reasoningA.toList ++ sceneDescription.take 50 ++ reasoningB.toList ++ visualMood ++
      reasoningC.toList ++ natChars moods.length ++ reasoningD.toList ++
      List.intercalate commaSep moods ++ reasoningE.toList)
  | Except.error _ => ([ambientTag.toList], analysisErrorReasoning.toList)

/-- Wrapper `generateSoundSuggestionsEnhanced` (parametric in the opaque
`AudioSuggestion` payload type): on provider failure returns no suggestions and
a fixed description. -/
def generateSoundSuggestionsEnhanced (α : Type) (sceneDescription : List Char)
    (mood : List (List Char)) (cameraMovement lighting : List Char)
    (provider : Except (List Char) (List α)) : List α × List Char :=
  match provider with
  | Except.ok suggestions =>
    (suggestions,
      soundDescA.toList ++ natChars suggestions.length ++ soundDescB.toList ++
      List.intercalate slashSep mood ++ soundDescC.toList ++ cameraMovement ++
      soundDescD.toList ++ lighting ++ soundDescE.toList)
  | Except.error _ => ([], soundErrorDescription.toList)

/-- Wrapper `generateFoleySuggestionsEnhanced` (parametric in the opaque
`FoleySuggestion` payload type): on provider failure returns no suggestions and
a fixed insights string. -/
def generateFoleySuggestionsEnhanced (α : Type) (characters : List (List Char))
    (sceneDescription cameraMovement : List Char)
    (provider : Except (List Char) (List α)) : List α × List Char :=
  match provider with
  | Except.ok suggestions =>
    (suggestions,
      foleyInsightsA.toList ++ natChars suggestions.length ++ foleyInsightsB.toList ++
      natChars characters.length ++ foleyInsightsC.toList)
  | Except.error _ => ([], foleyErrorInsights.toList)

/-! Section: helper lemmas about the stable priority sort -/

theorem insertSug_perm (x : CrossModuleSuggestion) (l : List CrossModuleSuggestion) :
    List.Perm (insertSug x l) (x :: l) := by
  induction l with
  | nil => exact List.Perm.refl _
  | cons z zs ih =>
    rw [insertSug]
    split
    · exact List.Perm.refl _
    · exact (ih.cons z).trans (List.Perm.swap x z zs)

theorem sortSuggestions_perm (l : List CrossModuleSuggestion) :
    List.Perm (sortSuggestions l) l := by
  induction l with
  | nil => exact List.Perm.refl _
  | cons x xs ih => exact (insertSug_perm x (sortSuggestions xs)).trans (ih.cons x)

theorem insertSug_pairwise (x : CrossModuleSuggestion) (l : List CrossModuleSuggestion)
    (h : l.Pairwise fun a b => priorityOrder b.priority ≤ priorityOrder a.priority) :
    (insertSug x l).Pairwise fun a b => priorityOrder b.priority ≤ priorityOrder a.priority := by
  induction l with
  | nil => simp [insertSug]
  | cons z zs ih =>
    rcases List.pairwise_cons.mp h with ⟨hz, hzs⟩
    rw [insertSug]
    split
    · rename_i hc
      refine List.pairwise_cons.mpr ⟨?_, h⟩
      intro b hb
      rcases List.mem_cons.mp hb with rfl | hb
      · exact hc
      · exact le_trans (hz b hb) hc
    · rename_i hc
      refine List.pairwise_cons.mpr ⟨?_, ih hzs⟩
      intro b hb
      rcases List.mem_cons.mp ((insertSug_perm x zs).mem_iff.mp hb) with rfl | hb'
      · exact Nat.le_of_lt (Nat.lt_of_not_le hc)
      · exact hz b hb'

theorem sortSuggestions_pairwise (l : List CrossModuleSuggestion) :
    (sortSuggestions l).Pairwise fun a b => priorityOrder b.priority ≤ priorityOrder a.priority := by
  induction l with
  | nil => simp [sortSuggestions]
  | cons x xs ih => exact insertSug_pairwise x (sortSuggestions xs) ih

theorem filter_insertSug (p : Priority) (x : CrossModuleSuggestion)
    (l : List CrossModuleSuggestion) :
    (insertSug x l).filter (fun s => s.priority == p) =
      (x :: l).filter (fun s => s.priority == p) := by
  induction l with
  | nil => rfl
  | cons z zs ih =>
    rw [insertSug]
    split
    · rfl
    · rename_i hc
      by_cases hx : x.priority = p
      · by_cases hz : z.priority = p
        · exact absurd (by rw [hx, hz]) hc
        · simp [List.filter_cons, hx, hz, ih]
      · simp [List.filter_cons, hx, ih]

theorem filter_sortSuggestions (p : Priority) (l : List CrossModuleSuggestion) :
    (sortSuggestions l).filter (fun s => s.priority == p) =
      l.filter (fun s => s.priority == p) := by
  induction l with
  | nil => rfl
  | cons x xs ih =>
    rw [sortSuggestions, filter_insertSug]
    simp only [List.filter_cons, ih]

/-! Section: claim theorems C6, C7, C10 -/

/-- C6: immediately after every call to `addModuleInsight` returns, the stored
suggestion list equals the result of a full re-analysis of the current insight
store — no stale-suggestion state is observable. -/
theorem addModuleInsight_suggestions_fresh (s : CV.ServiceState) (m : CV.CVModule)
    (insight : List Char) (relevance : Relevance) (sharedData : Option (List Char)) :
    (CV.addModuleInsight s m insight relevance sharedData).crossModuleSuggestions =
      CV.analyzeCrossModuleSynergies
        (CV.addModuleInsight s m insight relevance sharedData).castingInsights
        (CV.addModuleInsight s m insight relevance sharedData).visualInsights := by
  cases m <;> rfl

/-- C7: for every state of the suggestion list, `getCrossModuleSuggestions`
returns a list whose adjacent pairs are non-increasing in priority rank
(high=3, medium=2, low=1), and suggestions of equal priority keep their stored
(rule-evaluation) order: the sort is stable, so filtering the output by any
priority returns exactly the stored sublist of that priority, in order. -/
theorem getCrossModuleSuggestions_sorted_stable (s : CV.ServiceState) :
    List.Chain' (fun a b => priorityOrder b.priority ≤ priorityOrder a.priority)
      (CV.getCrossModuleSuggestions s) ∧
    ∀ p : Priority,
      (CV.getCrossModuleSuggestions s).filter (fun x => x.priority == p) =
        s.crossModuleSuggestions.filter (fun x => x.priority == p) :=
  ⟨(sortSuggestions_pairwise s.crossModuleSuggestions).chain',
   fun p => filter_sortSuggestions p s.crossModuleSuggestions⟩

/-- C10: `getEnhancedServiceStats` reports `ttsAvailable` as `true` in every
host environment, speech synthesis present or not, because it tests the
always-constructed wrapper object (`ttsService !== null`) rather than the
underlying capability. -/
theorem getEnhancedServiceStats_ttsAvailable_always (env : HostEnv) :
    (getEnhancedServiceStats env).ttsAvailable = true := rfl

end Spec2Proof

namespace Spec2Proof

/-! Section: helper lemmas about rule evaluation -/

theorem analyze_nil_nil : CV.analyzeCrossModuleSynergies [] [] = [] := rfl

theorem find?_isSome_eq_any {α : Type} (p : α → Bool) (l : List α) :
    (l.find? p).isSome = l.any p := by
  induction l with
  | nil => rfl
  | cons a l ih => by_cases h : p a <;> simp [List.find?, h, ih]

theorem any_congr_perm {α : Type} (p : α → Bool) {l l' : List α}
    (h : List.Perm l l') : l.any p = l'.any p := by
  induction h with
  | nil => rfl
  | cons a _ ih => simp [ih]
  | swap a b l => simp [List.any_cons, Bool.or_left_comm]
  | trans _ _ ih1 ih2 => exact ih1.trans ih2

/-- Shape of the balance rule: it only tests existence of matching insights and
returns a fixed medium-priority payload. -/
theorem findVisualCastingBalance_eq_any (v c : List CV.ModuleInsight) :
    CV.findVisualCastingBalance v c =
      (if (v.any fun i => containsTok CV.warmKw i.insight || containsTok CV.goldenKw i.insight) &&
          (c.any fun i => containsTok CV.seriousKw i.insight || containsTok CV.professionalKw i.insight)
       then some (CV.balanceSuggestionText.toList, CV.balanceRationaleText.toList, Priority.medium)
       else none) := by
  simp only [CV.findVisualCastingBalance]
  have h1 := find?_isSome_eq_any
    (fun i => containsTok CV.warmKw i.insight || containsTok CV.goldenKw i.insight) v
  have h2 := find?_isSome_eq_any
    (fun i => containsTok CV.seriousKw i.insight || containsTok CV.professionalKw i.insight) c
  rcases hv : List.find?
      (fun i => containsTok CV.warmKw i.insight || containsTok CV.goldenKw i.insight) v with _ | x <;>
    rcases hc : List.find?
      (fun i => containsTok CV.seriousKw i.insight || containsTok CV.professionalKw i.insight) c with _ | y <;>
    rw [hv] at h1 <;> rw [hc] at h2 <;> simp [hv, hc, ← h1, ← h2]

/-- Shape of the alignment rule: it only tests the number of theme/emotion
insights and returns a fixed high-priority payload. -/
theorem findCastingVisualAlignment_eq_length (v c : List CV.ModuleInsight) :
    CV.findCastingVisualAlignment v c =
      (if 2 ≤ (c.filter fun i => containsTok CV.themeKw i.insight || containsTok CV.emotionKw i.insight).length +
              (v.filter fun i => containsTok CV.themeKw i.insight || containsTok CV.emotionKw i.insight).length
       then some (CV.enhanceSuggestionText.toList, CV.enhanceRationaleText.toList, Priority.high)
       else none) := by
  simp only [CV.findCastingVisualAlignment, List.length_append]

/-- Re-analysis depends only on the multiset of insights stored per module. -/
theorem analyzeCrossModuleSynergies_perm {c c' v v' : List CV.ModuleInsight}
    (hc : List.Perm c c') (hv : List.Perm v v') :
    CV.analyzeCrossModuleSynergies c v = CV.analyzeCrossModuleSynergies c' v' := by
  rw [CV.analyzeCrossModuleSynergies, CV.analyzeCrossModuleSynergies,
    findVisualCastingBalance_eq_any, findVisualCastingBalance_eq_any,
    findCastingVisualAlignment_eq_length, findCastingVisualAlignment_eq_length,
    any_congr_perm _ hv, any_congr_perm _ hc,
    ((hc.filter _).length_eq :
      (c.filter fun i => containsTok CV.themeKw i.insight || containsTok CV.emotionKw i.insight).length =
      (c'.filter fun i => containsTok CV.themeKw i.insight || containsTok CV.emotionKw i.insight).length),
    ((hv.filter _).length_eq :
      (v.filter fun i => containsTok CV.themeKw i.insight || containsTok CV.emotionKw i.insight).length =
      (v'.filter fun i => containsTok CV.themeKw i.insight || containsTok CV.emotionKw i.insight).length)]

/-! Section: claim theorems C2 and C3 -/

/-- C2: for every state of the insight store and suggestion list, the coherence
score equals the clamp to [0,100] of
50 + 10·(high-relevance insights) + 5·(high-priority suggestions) − 3·(low-priority suggestions);
it always lies in [0,100]; and with an empty store (and its derived empty
suggestion list) it is exactly 50. -/
theorem analyzeProjectCoherence_score_formula (s : CV.ServiceState) :
    ((CV.analyzeProjectCoherence s).score =
      max 0 (min 100
        (50 + 10 * (((CV.getAllInsights s).filter fun i => i.relevance == Relevance.high).length : Int)
            + 5 * ((s.crossModuleSuggestions.filter fun x => x.priority == Priority.high).length : Int)
            - 3 * ((s.crossModuleSuggestions.filter fun x => x.priority == Priority.low).length : Int)))) ∧
    (0 ≤ (CV.analyzeProjectCoherence s).score ∧ (CV.analyzeProjectCoherence s).score ≤ 100) ∧
    (s.castingInsights = [] → s.visualInsights = [] →
      s.crossModuleSuggestions = CV.analyzeCrossModuleSynergies [] [] →
      (CV.analyzeProjectCoherence s).score = 50) := by
  have hhigh := filter_sortSuggestions Priority.high s.crossModuleSuggestions
  have hlow := filter_sortSuggestions Priority.low s.crossModuleSuggestions
  refine ⟨?_, ⟨?_, ?_⟩, ?_⟩
  · simp only [CV.analyzeProjectCoherence, CV.getCrossModuleSuggestions, hhigh, hlow]
    omega
  · simp only [CV.analyzeProjectCoherence]
    exact le_max_left 0 _
  · simp only [CV.analyzeProjectCoherence]
    exact max_le (by norm_num) (min_le_left 100 _)
  · intro h1 h2 h3
    rw [analyze_nil_nil] at h3
    simp only [CV.analyzeProjectCoherence, CV.getAllInsights, CV.getCrossModuleSuggestions,
      h1, h2, h3]
    decide

theorem analyzeProjectCoherence_score_formula_witness :
    (CV.analyzeProjectCoherence CV.initState).score = 50 :=
  (analyzeProjectCoherence_score_formula CV.initState).2.2 rfl rfl analyze_nil_nil.symm

/-- C3: adding insights A and B in either order yields the same final
suggestion list (each insight attributed to the same module in both orders),
and more generally, insight stores with the same per-module contents (up to
permutation) produce identical suggestion lists after re-analysis. -/
theorem addModuleInsight_order_independent :
    (∀ (s : CV.ServiceState) (mA : CV.CVModule) (tA : List Char) (rA : Relevance)
       (dA : Option (List Char)) (mB : CV.CVModule) (tB : List Char) (rB : Relevance)
       (dB : Option (List Char)),
      (CV.addModuleInsight (CV.addModuleInsight s mA tA rA dA) mB tB rB dB).crossModuleSuggestions =
        (CV.addModuleInsight (CV.addModuleInsight s mB tB rB dB) mA tA rA dA).crossModuleSuggestions) ∧
    (∀ (c c' v v' : List CV.ModuleInsight), List.Perm c c' → List.Perm v v' →
      CV.analyzeCrossModuleSynergies c v = CV.analyzeCrossModuleSynergies c' v') := by
  constructor
  · intro s mA tA rA dA mB tB rB dB
    cases mA <;> cases mB <;> simp only [CV.addModuleInsight] <;>
      first
        | rfl
        | (apply analyzeCrossModuleSynergies_perm ?_ (List.Perm.refl _)
           rw [List.append_assoc, List.append_assoc]
           exact List.Perm.append_left _ (List.Perm.swap _ _ _))
        | (apply analyzeCrossModuleSynergies_perm (List.Perm.refl _) ?_
           rw [List.append_assoc, List.append_assoc]
           exact List.Perm.append_left _ (List.Perm.swap _ _ _))
  · intro c c' v v' hc hv
    exact analyzeCrossModuleSynergies_perm hc hv

def warmInsight : CV.ModuleInsight :=
  { module := CV.CVModule.visual, insight := CV.warmKw, relevance := Relevance.medium,
    actionable := true, sharedData := none }
def goldenInsight : CV.ModuleInsight :=
  { module := CV.CVModule.visual, insight := CV.goldenKw, relevance := Relevance.medium,
    actionable := true, sharedData := none }
def seriousInsight : CV.ModuleInsight :=
  { module := CV.CVModule.casting, insight := CV.seriousKw, relevance := Relevance.medium,
    actionable := true, sharedData := none }

theorem addModuleInsight_order_independent_witness :
    CV.analyzeCrossModuleSynergies [seriousInsight] [warmInsight, goldenInsight] =
      CV.analyzeCrossModuleSynergies [seriousInsight] [goldenInsight, warmInsight] :=
  addModuleInsight_order_independent.2 _ _ _ _ (List.Perm.refl _) (List.Perm.swap _ _ _)

end Spec2Proof

namespace Spec2Proof

/-! Section: claim theorems C4 and C5 -/

def moodTenseText : String := "mood: tense atmosphere"
def dramaticLightingText : String := "dramatic lighting and color palette"

/-- The state of the sound+visual service after the two sample insertions. -/
def c4State : SV.ServiceState :=
  SV.addModuleInsight
    (SV.addModuleInsight SV.initState SV.SVModule.sound moodTenseText.toList
      Relevance.medium none)
    SV.SVModule.visual dramaticLightingText.toList Relevance.medium none

/-- C4: after adding a sound insight containing "mood"/"atmosphere" text and a
visual insight containing "lighting"/"color" text, the suggestion list of the
sound+visual service contains a suggestion of type sync with priority high. -/
theorem soundVisual_sync_scenario :
    ∃ x ∈ c4State.crossModuleSuggestions,
      x.type = SuggestionType.sync ∧ x.priority = Priority.high := by
  decide

def warmThemeText : String := "warm theme"
def seriousThemeText : String := "serious theme"

/-- C5 counterexample: a visual text containing "warm" and a casting text
containing "serious" that additionally both mention "theme" make the alignment
rule fire too, so the suggestion list has two suggestions rather than exactly
one. -/
theorem visualCasting_balance_counterexample :
    ((containsTok CV.warmKw warmThemeText.toList ||
        containsTok CV.goldenKw warmThemeText.toList) = true) ∧
    ((containsTok CV.seriousKw seriousThemeText.toList ||
        containsTok CV.professionalKw seriousThemeText.toList) = true) ∧
    (CV.addModuleInsight
        (CV.addModuleInsight CV.initState CV.CVModule.visual warmThemeText.toList
          Relevance.medium none)
        CV.CVModule.casting seriousThemeText.toList Relevance.medium
        none).crossModuleSuggestions.length = 2 := by
  decide

/-- C5 (amended): starting from an empty store, adding one visual insight whose
text contains "golden" or "warm" and one casting insight whose text contains
"serious" or "professional" — provided the two texts do not both also contain
"theme" or "emotion", which would additionally fire the alignment rule — the
suggestion list is exactly one balance suggestion of priority medium whose
modules list references both visual and casting. -/
theorem visualCasting_balance_scenario (vt ct : List Char) (rv rc : Relevance)
    (dv dc : Option (List Char))
    (h1 : (containsTok CV.warmKw vt || containsTok CV.goldenKw vt) = true)
    (h2 : (containsTok CV.seriousKw ct || containsTok CV.professionalKw ct) = true)
    (h3 : ¬((containsTok CV.themeKw vt || containsTok CV.emotionKw vt) = true ∧
            (containsTok CV.themeKw ct || containsTok CV.emotionKw ct) = true)) :
    (CV.addModuleInsight (CV.addModuleInsight CV.initState CV.CVModule.visual vt rv dv)
        CV.CVModule.casting ct rc dc).crossModuleSuggestions =
      [{ type := SuggestionType.balance, modules := [CV.visualStr, CV.castingStr],
         suggestion := CV.balanceSuggestionText.toList,
         rationale := CV.balanceRationaleText.toList, priority := Priority.medium }] := by
  rcases hq1 : (containsTok CV.themeKw vt || containsTok CV.emotionKw vt) with _ | _ <;>
    rcases hq2 : (containsTok CV.themeKw ct || containsTok CV.emotionKw ct) with _ | _
  · simp [CV.addModuleInsight, CV.initState, CV.analyzeCrossModuleSynergies,
      CV.findVisualCastingBalance, CV.findCastingVisualAlignment, List.find?, h1, h2, hq1, hq2]
  · simp [CV.addModuleInsight, CV.initState, CV.analyzeCrossModuleSynergies,
      CV.findVisualCastingBalance, CV.findCastingVisualAlignment, List.find?, h1, h2, hq1, hq2]
  · simp [CV.addModuleInsight, CV.initState, CV.analyzeCrossModuleSynergies,
      CV.findVisualCastingBalance, CV.findCastingVisualAlignment, List.find?, h1, h2, hq1, hq2]
  · exact absurd ⟨hq1, hq2⟩ h3

def goldenWarmText : String := "the lighting feels golden and warm"
def seriousProfessionalText : String := "character is serious and professional"

theorem visualCasting_balance_scenario_witness :
    (CV.addModuleInsight
        (CV.addModuleInsight CV.initState CV.CVModule.visual goldenWarmText.toList
          Relevance.medium none)
        CV.CVModule.casting seriousProfessionalText.toList Relevance.medium
        none).crossModuleSuggestions =
      [{ type := SuggestionType.balance, modules := [CV.visualStr, CV.castingStr],
         suggestion := CV.balanceSuggestionText.toList,
         rationale := CV.balanceRationaleText.toList, priority := Priority.medium }] :=
  visualCasting_balance_scenario goldenWarmText.toList seriousProfessionalText.toList
    Relevance.medium Relevance.medium none none (by decide) (by decide) (by decide)

/-! Section: claim theorems C8 -/

def errorWord : String := "error"

/-- C8 counterexample: the claim says the returned value never contains the
provider error text verbatim; a provider failure whose error text is the short
string "error" is contained verbatim in the fixed fallback wording of both
wrappers. -/
theorem enhanced_fallback_counterexample :
    (analyzeSoundMoodEnhanced [] [] (Except.error errorWord.toList)).1 =
      [ambientTag.toList] ∧
    containsTok errorWord.toList
      (analyzeSoundMoodEnhanced [] [] (Except.error errorWord.toList)).2 = true ∧
    containsTok errorWord.toList
      (generateSoundSuggestionsEnhanced Unit [] [] [] [] (Except.error errorWord.toList)).2 =
      true := by
  decide

/-- C8 (amended): whenever the provider call fails, each enhanced wrapper
returns its fixed default instead of propagating the failure —
`analyzeSoundMoodEnhanced` returns moods [ambient] with a fixed fallback
reasoning, and the two suggestion generators return an empty list with a fixed
description — and the result does not depend on the error at all (any two
failures yield identical results), so nothing derived from the provider error
text is included (though a short error text may coincide with a substring of
the fixed wording). -/
theorem enhanced_fallback_defaults (α β : Type) (scene vm cam light e e2 : List Char)
    (mood chars : List (List Char)) :
    (analyzeSoundMoodEnhanced scene vm (Except.error e) =
      ([ambientTag.toList], analysisErrorReasoning.toList)) ∧
    (generateSoundSuggestionsEnhanced α scene mood cam light (Except.error e) =
      ([], soundErrorDescription.toList)) ∧
    (generateFoleySuggestionsEnhanced β chars scene cam (Except.error e) =
      ([], foleyErrorInsights.toList)) ∧
    (analyzeSoundMoodEnhanced scene vm (Except.error e) =
      analyzeSoundMoodEnhanced scene vm (Except.error e2)) ∧
    (generateSoundSuggestionsEnhanced α scene mood cam light (Except.error e) =
      generateSoundSuggestionsEnhanced α scene mood cam light (Except.error e2)) ∧
    (generateFoleySuggestionsEnhanced β chars scene cam (Except.error e) =
      generateFoleySuggestionsEnhanced β chars scene cam (Except.error e2)) :=
  ⟨rfl, rfl, rfl, rfl, rfl, rfl⟩

end Spec2Proof

namespace Spec2Proof

/-! Section: claim theorem C9 (invariants of reachable states) -/

theorem balance_some_value {v c : List CV.ModuleInsight}
    {x : List Char × List Char × Priority}
    (h : CV.findVisualCastingBalance v c = some x) :
    x = (CV.balanceSuggestionText.toList, CV.balanceRationaleText.toList, Priority.medium) := by
  rw [findVisualCastingBalance_eq_any] at h
  split at h
  · exact (Option.some.inj h).symm
  · cases h

theorem alignment_some_value {v c : List CV.ModuleInsight}
    {x : List Char × List Char × Priority}
    (h : CV.findCastingVisualAlignment v c = some x) :
    x = (CV.enhanceSuggestionText.toList, CV.enhanceRationaleText.toList, Priority.high) := by
  rw [findCastingVisualAlignment_eq_length] at h
  split at h
  · exact (Option.some.inj h).symm
  · cases h

theorem analyze_shape (c v : List CV.ModuleInsight) :
    (CV.analyzeCrossModuleSynergies c v).length ≤ 2 ∧
    ∀ x ∈ CV.analyzeCrossModuleSynergies c v,
      (x.type = SuggestionType.balance ∨ x.type = SuggestionType.enhance) ∧
      (x.priority = Priority.medium ∨ x.priority = Priority.high) := by
  rw [CV.analyzeCrossModuleSynergies]
  rcases hB : CV.findVisualCastingBalance v c with _ | xB
  · rcases hE : CV.findCastingVisualAlignment v c with _ | xE
    · simp
    · have hx := alignment_some_value hE
      subst hx
      simp
  · have hx := balance_some_value hB
    subst hx
    rcases hE : CV.findCastingVisualAlignment v c with _ | xE
    · simp
    · have hx := alignment_some_value hE
      subst hx
      simp

theorem reachable_suggestions_shape (s : CV.ServiceState) (h : CV.Reachable s) :
    s.crossModuleSuggestions.length ≤ 2 ∧
    ∀ x ∈ s.crossModuleSuggestions,
      (x.type = SuggestionType.balance ∨ x.type = SuggestionType.enhance) ∧
      (x.priority = Priority.medium ∨ x.priority = Priority.high) := by
  induction h with
  | init => simp [CV.initState]
  | add s m t r d _ _ => cases m <;> exact analyze_shape _ _
  | clear s _ _ => simp [CV.clearInsights]

/-- C9: in every reachable state of the casting+visual service, the suggestion
list has at most two entries, every suggestion is balance or enhance (never
sync or contrast) with priority medium or high (never low); consequently the
−3 low-priority deduction never applies and the coherence score is at least 50. -/
theorem reachable_invariant (s : CV.ServiceState) (h : CV.Reachable s) :
    s.crossModuleSuggestions.length ≤ 2 ∧
    (∀ x ∈ s.crossModuleSuggestions,
      (x.type = SuggestionType.balance ∨ x.type = SuggestionType.enhance) ∧
      (x.priority = Priority.medium ∨ x.priority = Priority.high)) ∧
    s.crossModuleSuggestions.filter (fun x => x.priority == Priority.low) = [] ∧
    50 ≤ (CV.analyzeProjectCoherence s).score := by
  obtain ⟨hlen, hmem⟩ := reachable_suggestions_shape s h
  have hlow : s.crossModuleSuggestions.filter (fun x => x.priority == Priority.low) = [] := by
    rw [List.filter_eq_nil_iff]
    intro x hx
    rcases (hmem x hx).2 with h' | h' <;> simp [h']
  refine ⟨hlen, hmem, hlow, ?_⟩
  have hsortlow := filter_sortSuggestions Priority.low s.crossModuleSuggestions
  simp only [CV.analyzeProjectCoherence, CV.getCrossModuleSuggestions]
  rw [hsortlow, hlow]
  simp only [List.length_nil]
  omega

theorem reachable_invariant_witness :
    50 ≤ (CV.analyzeProjectCoherence
        (CV.addModuleInsight CV.initState CV.CVModule.visual CV.warmKw Relevance.high none)).score ∧
    (CV.addModuleInsight CV.initState CV.CVModule.visual CV.warmKw
        Relevance.high none).crossModuleSuggestions.length ≤ 2 :=
  ⟨(reachable_invariant _ (CV.Reachable.add _ _ _ _ _ CV.Reachable.init)).2.2.2,
   (reachable_invariant _ (CV.Reachable.add _ _ _ _ _ CV.Reachable.init)).1⟩

end Spec2Proof

namespace Spec2Proof

/-! Section: the error sanitizer (`sanitizeErrorMessage`) -/

/-- JS `\s` (the ASCII part; inputs are modelled as ASCII text). -/
def isSpaceJS (c : Char) : Bool :=
  c == ' ' || c == '\t' || c == '\n' || c == '\r' || c == '\x0B' || c == '\x0C'

def isQuote (c : Char) : Bool := c == '"' || c == '\''

/-- Case-insensitive character comparison for the /i regex flag (ASCII). -/
def ciEq (c d : Char) : Bool := c.toLower == d.toLower

/-- Case-sensitive character comparison. -/
def chrEq (c d : Char) : Bool := c == d

/-- Matches a literal as a prefix under the given character comparison
(case-insensitive for an /i regex), returning index the rest of the input. -/
def matchLit (eqc : Char → Char → Bool) : List Char → List Char → Option (List Char)
  | [], s => some s
  | _ :: _, [] => none
  | l :: ls, c :: cs => if eqc l c then matchLit eqc ls cs else none

def matchLitN (eqc : Char → Char → Bool) (lit : List Char) (s : List Char) :
    Option (Nat × List Char) :=
  match matchLit eqc lit s with
  | none => none
  | some rest => some (lit.length, rest)

/-- An optional single character (`?` on a character class, greedy). -/
def matchOpt (p : Char → Bool) : List Char → Nat × List Char
  | [] => (0, [])
  | c :: cs => if p c then (1, cs) else (0, c :: cs)

/-- A greedy `*` on a character class. -/
def matchStar (p : Char → Bool) (s : List Char) : Nat × List Char :=
  ((s.takeWhile p).length, s.dropWhile p)

/-- A single required character. -/
def matchOne (p : Char → Bool) : List Char → Option (Nat × List Char)
  | [] => none
  | c :: cs => if p c then some (1, cs) else none

/-- A greedy `+` on a character class. -/
def matchPlus (p : Char → Bool) : List Char → Option (Nat × List Char)
  | [] => none
  | c :: cs =>
    if p c then
      let r := matchStar p cs
      some (r.1 + 1, r.2)
    else none

/-- Generic global-replace scanner mirroring `String.prototype.replace` with a
/g regex: at each position, if the matcher accepts a prefix of the remaining
input, emit the replacement and resume after the match, else copy one
character.  A matcher returns the number of characters matched minus one, so a
match always consumes at least one character. -/
def scanWith (m : List Char → Option Nat) (repl : List Char) : List Char → List Char
  | [] => []
  | c :: cs =>
    match m (c :: cs) with
    | some k => repl ++ scanWith m repl (cs.drop k)
    | none => c :: scanWith m repl cs
termination_by l => l.length
decreasing_by
  · simp only [List.length_drop, List.length_cons]
    omega
  · simp only [List.length_cons]
    omega

def aizaLit : List Char := ['A', 'I', 'z', 'a']
def apiLit : List Char := ['a', 'p', 'i']
def keyLit : List Char := ['k', 'e', 'y']
def authorizationLit : List Char :=
  ['a', 'u', 't', 'h', 'o', 'r', 'i', 'z', 'a', 't', 'i', 'o', 'n']
def bearerLit : List Char := ['b', 'e', 'a', 'r', 'e', 'r']
def envLit : List Char := ['p', 'r', 'o', 'c', 'e', 's', 's', '.', 'e', 'n', 'v', '.']

def isTokenDotChar (c : Char) : Bool := isClassChar c || c == '.'
def isEnvTail (c : Char) : Bool := c.isUpper || c == '_'

/-- Matcher for /AIza[0-9A-Za-z\-_]{35}/g (case-sensitive). -/
def matchAIza (s : List Char) : Option Nat :=
  match matchLit chrEq aizaLit s with
  | none => none
  | some rest =>
    if (rest.take 35).length = 35 && (rest.take 35).all isClassChar then some 38 else none

/-- Matcher for /api[_-]?key["']?\s*[:=]\s*["']?([0-9A-Za-z\-_]{32,})/gi. -/
def matchApiKey (s : List Char) : Option Nat :=
  match matchLitN ciEq apiLit s with
  | none => none
  | some (n1, s1) =>
    let r2 := matchOpt (fun c => c == '_' || c == '-') s1
    match matchLitN ciEq keyLit r2.2 with
    | none => none
    | some (n3, s3) =>
      let r4 := matchOpt isQuote s3
      let r5 := matchStar isSpaceJS r4.2
      match matchOne (fun c => c == ':' || c == '=') r5.2 with
      | none => none
      | some (n6, s6) =>
        let r7 := matchStar isSpaceJS s6
        let r8 := matchOpt isQuote r7.2
        let r9 := matchStar isClassChar r8.2
        if 32 ≤ r9.1 then
          some (n1 + r2.1 + n3 + r4.1 + r5.1 + n6 + r7.1 + r8.1 + r9.1 - 1)
        else none

/-- Matcher for /authorization["']?\s*[:=]\s*["']?Bearer\s+[0-9A-Za-z\-_.]+/gi. -/
def matchAuth (s : List Char) : Option Nat :=
  match matchLitN ciEq authorizationLit s with
  | none => none
  | some (n1, s1) =>
    let r2 := matchOpt isQuote s1
    let r3 := matchStar isSpaceJS r2.2
    match matchOne (fun c => c == ':' || c == '=') r3.2 with
    | none => none
    | some (n4, s4) =>
      let r5 := matchStar isSpaceJS s4
      let r6 := matchOpt isQuote r5.2
      match matchLitN ciEq bearerLit r6.2 with
      | none => none
      | some (n7, s7) =>
        match matchPlus isSpaceJS s7 with
        | none => none
        | some (n8, s8) =>
          match matchPlus isTokenDotChar s8 with
          | none => none
          | some (n9, _) => some (n1 + r2.1 + r3.1 + n4 + r5.1 + r6.1 + n7 + n8 + n9 - 1)

/-- Matcher for /process\.env\.[A-Z_]+/g (case-sensitive). -/
def matchEnvVar (s : List Char) : Option Nat :=
  match matchLitN chrEq envLit s with
  | none => none
  | some (n1, s1) =>
    match matchPlus isEnvTail s1 with
    | none => none
    | some (n2, _) => some (n1 + n2 - 1)

def apiKeyMarker : String := "[API_KEY]"
def apiKeyRedacted : String := "api_key: [REDACTED]"
def authRedacted : String := "Authorization: Bearer [REDACTED]"
def redactedTokenMarker : String := "[REDACTED_TOKEN]"
def envVarMarker : String := "[ENV_VAR]"

def scan1 : List Char → List Char := scanWith matchAIza apiKeyMarker.toList
def scan2 : List Char → List Char := scanWith matchApiKey apiKeyRedacted.toList
def scan3 : List Char → List Char := scanWith matchAuth authRedacted.toList
def scan5 : List Char → List Char := scanWith matchEnvVar envVarMarker.toList

/-- End-boundary test for the long-token regex: whether `\b` holds between the
last matched character `p` and the following character (none at end of input). -/
def bnd (p : Char) (next : Option Char) : Bool :=
  match next with
  | none => isWordChar p
  | some d => isWordChar p != isWordChar d

/-- Whether the greedy `{40,}` quantifier may stop after `e` characters of the
class run `run` (with `next` the first character after the whole run). -/
def tryEnd (run : List Char) (next : Option Char) (e : Nat) : Bool :=
  if e < 40 then false
  else
    match run.get? (e - 1) with
    | none => false
    | some p =>
      if e = run.length then bnd p next
      else
        match run.get? e with
        | none => false
        | some d => isWordChar p != isWordChar d

/-- Greedy backtracking: the largest admissible match end not exceeding `n`. -/
def findEndDown (run : List Char) (next : Option Char) : Nat → Option Nat
  | 0 => none
  | e + 1 => if tryEnd run next (e + 1) then some (e + 1) else findEndDown run next e

def findEnd (run : List Char) (next : Option Char) : Option Nat :=
  findEndDown run next run.length

theorem findEndDown_bounds {run : List Char} {next : Option Char} :
    ∀ {n e : Nat}, findEndDown run next n = some e →
      40 ≤ e ∧ e ≤ n ∧ tryEnd run next e = true := by
  intro n
  induction n with
  | zero => intro e h; cases h
  | succ n ih =>
    intro e h
    rw [findEndDown] at h
    split at h
    · rename_i ht
      cases h
      refine ⟨?_, Nat.le_refl _, ht⟩
      by_contra hlt
      rw [tryEnd, if_pos (by omega)] at ht
      cases ht
    · rcases ih h with ⟨h1, h2, h3⟩
      exact ⟨h1, Nat.le_succ_of_le h2, h3⟩

theorem findEndDown_complete {run : List Char} {next : Option Char} {e : Nat}
    (h : tryEnd run next e = true) :
    ∀ {n : Nat}, e ≤ n → (findEndDown run next n).isSome = true := by
  intro n
  induction n with
  | zero =>
    intro he
    have : e = 0 := Nat.le_zero.mp he
    subst this
    rw [tryEnd, if_pos (by omega)] at h
    cases h
  | succ n ih =>
    intro he
    rw [findEndDown]
    split
    · rfl
    · rename_i hne
      rcases Nat.lt_or_ge e (n + 1) with hlt | hge
      · exact ih (Nat.lt_succ_iff.mp hlt)
      · have : e = n + 1 := Nat.le_antisymm he hge
        subst this
        exact absurd h (by simpa using hne)

theorem tryEnd_le_length {run : List Char} {next : Option Char} {e : Nat}
    (h : tryEnd run next e = true) : 40 ≤ e ∧ e ≤ run.length := by
  rw [tryEnd] at h
  split at h
  · cases h
  · rename_i h40
    constructor
    · omega
    · rcases hg : run.get? (e - 1) with _ | p
      · rw [hg] at h; cases h
      · obtain ⟨hlt, _⟩ := List.get?_eq_some.mp hg
        omega

theorem length_takeWhile_le' {α : Type} (p : α → Bool) (l : List α) :
    (l.takeWhile p).length ≤ l.length := by
  induction l with
  | nil => simp
  | cons a l ih => by_cases h : p a <;> simp [List.takeWhile_cons, h] <;> omega

/-- The scanner for /\b[0-9A-Za-z\-_]{40,}\b/g.  `prevW` records whether the
character just before the current position is a word character (false at the
start of the input); `\b` holds exactly when word-ness changes. -/
def scan4 (prevW : Bool) : List Char → List Char
  | [] => []
  | c :: cs =>
    if isClassChar c && (isWordChar c != prevW) then
      match hfe : findEnd ((c :: cs).takeWhile isClassChar)
          (((c :: cs).dropWhile isClassChar).head?) with
      | some e =>
        redactedTokenMarker.toList ++
          scan4 (match ((c :: cs).takeWhile isClassChar).get? (e - 1) with
                 | some p => isWordChar p
                 | none => false) ((c :: cs).drop e)
      | none => c :: scan4 (isWordChar c) cs
    else c :: scan4 (isWordChar c) cs
termination_by l => l.length
decreasing_by
  · have hb := findEndDown_bounds hfe
    have hbl := tryEnd_le_length hb.2.2
    have he := le_trans hbl.2 (length_takeWhile_le' _ _)
    simp only [List.length_drop]
    omega
  · simp only [List.length_cons]; omega
  · simp only [List.length_cons]; omega

/-- First line, as `split(String.fromCharCode(10))[0]`. -/
def firstLine (s : List Char) : List Char := s.takeWhile (fun c => c != '\n')

/-- The sanitizer `sanitizeErrorMessage`, applied to an `Error` with the given
message and stack (a non-`Error` input is the `stack = []` case): the full
error text is message, newline, stack; then the five replacements run in
source order, and the first line of the result is returned. -/
def sanitizeErrorMessage (message stack : List Char) : List Char :=
  firstLine (scan5 (scan4 false (scan3 (scan2 (scan1 (message ++ '\n' :: stack))))))

end Spec2Proof

namespace Spec2Proof

/-! Section: list helpers for the sanitizer proofs -/

theorem prefix_get? {α : Type} {t l : List α} (h : t <+: l) {i : Nat}
    (hi : i < t.length) : l.get? i = t.get? i := by
  obtain ⟨r, rfl⟩ := h
  exact List.get?_append hi

theorem takeWhile_get?_sat {α : Type} (p : α → Bool) (l : List α) {i : Nat}
    (hi : i < (l.takeWhile p).length) :
    ∃ x, l.get? i = some x ∧ p x = true := by
  have hpre : l.takeWhile p <+: l := List.takeWhile_prefix p
  rcases hx : (l.takeWhile p).get? i with _ | x
  · rw [List.get?_eq_none] at hx
    omega
  · exact ⟨x, by rw [prefix_get? hpre hi, hx],
      List.mem_takeWhile_imp (List.get?_mem hx)⟩

theorem takeWhile_stop {α : Type} (p : α → Bool) (l : List α)
    (h : (l.takeWhile p).length < l.length) :
    ∃ x, l.get? (l.takeWhile p).length = some x ∧ p x = false := by
  induction l with
  | nil => simp at h
  | cons a l ih =>
    by_cases hp : p a
    · rw [List.takeWhile_cons, if_pos hp] at h ⊢
      simp only [List.length_cons] at h ⊢
      simpa using ih (by omega)
    · rw [List.takeWhile_cons, if_neg hp]
      exact ⟨a, rfl, by simpa using hp⟩

theorem dropWhile_head?_false {α : Type} (p : α → Bool) (l : List α) {d : α}
    (h : (l.dropWhile p).head? = some d) : p d = false := by
  induction l with
  | nil => simp [List.dropWhile] at h
  | cons a l ih =>
    by_cases hp : p a
    · rw [List.dropWhile_cons, if_pos hp] at h
      exact ih h
    · rw [List.dropWhile_cons, if_neg hp] at h
      cases h
      simpa using hp

theorem takeWhile_append_sep {α : Type} (p : α → Bool) {d : α} (hd : p d = false)
    (A B : List α) : (A ++ d :: B).takeWhile p = A.takeWhile p := by
  induction A with
  | nil => simp [List.takeWhile_cons, hd]
  | cons a A ih => by_cases hp : p a <;> simp [List.takeWhile_cons, hp, ih]

theorem dropWhile_append_sep {α : Type} (p : α → Bool) {d : α} (hd : p d = false)
    (A B : List α) : (A ++ d :: B).dropWhile p = A.dropWhile p ++ d :: B := by
  induction A with
  | nil => simp [List.dropWhile_cons, hd]
  | cons a A ih => by_cases hp : p a <;> simp [List.dropWhile_cons, hp, ih]

theorem prefix_takeWhile_of_all {α : Type} {p : α → Bool} {t l : List α}
    (h : t <+: l) (ht : t.all p = true) : t <+: l.takeWhile p := by
  induction t generalizing l with
  | nil => simp
  | cons a t ih =>
    obtain ⟨r, rfl⟩ := h
    simp only [List.all_cons, Bool.and_eq_true] at ht
    rw [List.cons_append, List.takeWhile_cons, if_pos ht.1]
    exact (List.cons_prefix_cons).mpr ⟨rfl, ih ⟨r, rfl⟩ ht.2⟩

theorem infix_cons_cases {α : Type} {t : List α} {c : α} {s : List α}
    (h : t <:+: c :: s) : t <+: c :: s ∨ t <:+: s := by
  obtain ⟨u, v, huv⟩ := h
  cases u with
  | nil => exact Or.inl ⟨v, by simpa using huv⟩
  | cons a u =>
    injection huv with h1 h2
    exact Or.inr ⟨u, v, h2⟩

theorem prefix_append_cases {α : Type} {t a b : List α} (h : t <+: a ++ b) :
    t <+: a ∨ ∃ t₂, t = a ++ t₂ ∧ t₂ <+: b := by
  obtain ⟨r, hr⟩ := h
  rcases List.append_eq_append_iff.mp hr with ⟨a', ha1, _⟩ | ⟨c', hc1, hc2⟩
  · exact Or.inl ⟨a', ha1.symm⟩
  · exact Or.inr ⟨c', hc1, ⟨r, hc2.symm⟩⟩

theorem infix_append_cases {α : Type} {t a b : List α} (h : t <:+: a ++ b) :
    t <:+: a ∨ t <:+: b ∨
      ∃ t₁ t₂, t = t₁ ++ t₂ ∧ t₁ ≠ [] ∧ t₂ ≠ [] ∧ t₁ <:+ a ∧ t₂ <+: b := by
  obtain ⟨u, v, huv⟩ := h
  rw [List.append_assoc] at huv
  rcases List.append_eq_append_iff.mp huv with ⟨a', ha1, ha2⟩ | ⟨c', hc1, hc2⟩
  · -- a = u ++ a', t ++ v = a' ++ b
    rcases List.append_eq_append_iff.mp ha2 with ⟨w, hw1, _⟩ | ⟨w, hw1, hw2⟩
    · -- a' = t ++ w : t is an infix of a
      exact Or.inl ⟨u, w, by rw [ha1, hw1, List.append_assoc]⟩
    · -- t = a' ++ w, b = w ++ v
      rcases ha' : a' with _ | ⟨x, a''⟩
      · subst ha'
        simp only [List.nil_append] at hw1
        subst hw1
        exact Or.inr (Or.inl ⟨[], v, by simp [← hw2]⟩)
      · rcases hww : w with _ | ⟨y, w'⟩
        · subst hww
          refine Or.inl ⟨u, [], ?_⟩
          rw [ha1, hw1]
          simp
        · refine Or.inr (Or.inr ⟨a', w, hw1, ?_, ?_, ⟨u, ha1.symm⟩, ⟨v, hw2.symm⟩⟩)
          · rw [ha']; simp
          · rw [hww]; simp
  · -- u = a ++ c' : t is an infix of b
    refine Or.inr (Or.inl ⟨c', v, ?_⟩)
    rw [List.append_assoc]
    exact hc2.symm

end Spec2Proof

namespace Spec2Proof

/-! Section: unfolding equations for the scanners -/

theorem scanWith_nil (m : List Char → Option Nat) (repl : List Char) :
    scanWith m repl [] = [] := by
  rw [scanWith]

theorem scanWith_cons_some {m : List Char → Option Nat} {repl : List Char}
    {c : Char} {cs : List Char} {k : Nat} (h : m (c :: cs) = some k) :
    scanWith m repl (c :: cs) = repl ++ scanWith m repl (cs.drop k) := by
  rw [scanWith, h]

theorem scanWith_cons_none {m : List Char → Option Nat} {repl : List Char}
    {c : Char} {cs : List Char} (h : m (c :: cs) = none) :
    scanWith m repl (c :: cs) = c :: scanWith m repl cs := by
  rw [scanWith, h]

theorem scan4_nil (prevW : Bool) : scan4 prevW [] = [] := by
  rw [scan4]

theorem scan4_cons_match {prevW : Bool} {c : Char} {cs : List Char} {e : Nat}
    (hguard : (isClassChar c && (isWordChar c != prevW)) = true)
    (hfe : findEnd ((c :: cs).takeWhile isClassChar)
      (((c :: cs).dropWhile isClassChar).head?) = some e) :
    scan4 prevW (c :: cs) = redactedTokenMarker.toList ++
      scan4 (match ((c :: cs).takeWhile isClassChar).get? (e - 1) with
             | some p => isWordChar p
             | none => false) ((c :: cs).drop e) := by
  rw [scan4, if_pos hguard]
  split
  · rename_i e' hfe'
    rw [hfe] at hfe'
    cases hfe'
    rfl
  · rename_i hfe'
    rw [hfe] at hfe'
    cases hfe'

theorem scan4_cons_none {prevW : Bool} {c : Char} {cs : List Char}
    (hguard : (isClassChar c && (isWordChar c != prevW)) = true)
    (hfe : findEnd ((c :: cs).takeWhile isClassChar)
      (((c :: cs).dropWhile isClassChar).head?) = none) :
    scan4 prevW (c :: cs) = c :: scan4 (isWordChar c) cs := by
  rw [scan4, if_pos hguard]
  split
  · rename_i e' hfe'
    rw [hfe] at hfe'
    cases hfe'
  · rfl

theorem scan4_cons_skip {prevW : Bool} {c : Char} {cs : List Char}
    (hguard : ¬ (isClassChar c && (isWordChar c != prevW)) = true) :
    scan4 prevW (c :: cs) = c :: scan4 (isWordChar c) cs := by
  rw [scan4, if_neg hguard]

/-! Section: opaque tokens and the completeness of the long-token matcher -/

/-- An opaque token in the sense of the ≥40-chars redaction rule: at least 40
characters of [0-9A-Za-z-_], beginning and ending with a word character (the
regex requires the `\b` boundaries, so dash endpoints do not match). -/
def isOpaqueToken (t : List Char) : Bool :=
  (decide (40 ≤ t.length)) && t.all isClassChar &&
    (match t.head? with | some c => isWordChar c | none => false) &&
    (match t.getLast? with | some c => isWordChar c | none => false)

theorem word_class {c : Char} (h : isWordChar c = true) : isClassChar c = true := by
  simp [isClassChar, h]

theorem class_false_word {c : Char} (h : isClassChar c = false) : isWordChar c = false := by
  by_contra hw
  rw [word_class (by simpa using hw)] at h
  cases h

theorem isOpaqueToken_spec {t : List Char} (h : isOpaqueToken t = true) :
    40 ≤ t.length ∧ t.all isClassChar = true ∧
    (∃ c t', t = c :: t' ∧ isWordChar c = true) ∧
    (∃ c, t.getLast? = some c ∧ isWordChar c = true) := by
  simp only [isOpaqueToken, Bool.and_eq_true, decide_eq_true_eq] at h
  obtain ⟨⟨⟨h1, h2⟩, h3⟩, h4⟩ := h
  refine ⟨h1, h2, ?_, ?_⟩
  · rcases t with _ | ⟨c, t'⟩
    · simp at h1
    · exact ⟨c, t', rfl, h3⟩
  · rcases hg : t.getLast? with _ | c
    · rw [hg] at h4
      cases h4
    · rw [hg] at h4
      exact ⟨c, rfl, h4⟩

theorem token_tryEnd {s tok : List Char} (hpre : tok <+: s)
    (htok : isOpaqueToken tok = true) :
    ∃ e, tryEnd (s.takeWhile isClassChar) ((s.dropWhile isClassChar).head?) e = true := by
  obtain ⟨hlen, hall, _, c1, hlast, hw1⟩ := isOpaqueToken_spec htok
  have hpr : tok <+: s.takeWhile isClassChar := prefix_takeWhile_of_all hpre hall
  obtain ⟨run', hr⟩ := hpr
  refine ⟨tok.length + (run'.takeWhile isWordChar).length, ?_⟩
  have hwle := length_takeWhile_le' isWordChar run'
  have hrunlen : (s.takeWhile isClassChar).length = tok.length + run'.length := by
    rw [← hr, List.length_append]
  rw [tryEnd, if_neg (by omega)]
  have hget : ∃ p, (s.takeWhile isClassChar).get? (tok.length + (run'.takeWhile isWordChar).length - 1) = some p ∧ isWordChar p = true := by
    rcases Nat.eq_zero_or_pos (run'.takeWhile isWordChar).length with hz | hpos
    · rw [hz, Nat.add_zero]
      refine ⟨c1, ?_, hw1⟩
      rw [prefix_get? ⟨run', hr⟩ (show tok.length - 1 < tok.length by omega)]
      rw [← List.getLast?_eq_get?, hlast]
    · obtain ⟨x, hx1, hx2⟩ := takeWhile_get?_sat isWordChar run'
        (show (run'.takeWhile isWordChar).length - 1 < (run'.takeWhile isWordChar).length by omega)
      refine ⟨x, ?_, hx2⟩
      rw [← hr, List.get?_append_right (by omega)]
      have : tok.length + (run'.takeWhile isWordChar).length - 1 - tok.length =
          (run'.takeWhile isWordChar).length - 1 := by omega
      rw [this]
      exact hx1
  obtain ⟨p, hp1, hp2⟩ := hget
  rw [hp1]
  dsimp only
  by_cases he : tok.length + (run'.takeWhile isWordChar).length = (s.takeWhile isClassChar).length
  · rw [if_pos he]
    rcases hnext : ((s.dropWhile isClassChar).head?) with _ | d
    · simp [bnd, hp2]
    · have hd := dropWhile_head?_false isClassChar s hnext
      simp [bnd, hp2, class_false_word hd]
  · rw [if_neg he]
    have hlt : (run'.takeWhile isWordChar).length < run'.length := by omega
    obtain ⟨x, hx1, hx2⟩ := takeWhile_stop isWordChar run' hlt
    have : (s.takeWhile isClassChar).get? (tok.length + (run'.takeWhile isWordChar).length) = some x := by
      rw [← hr, List.get?_append_right (by omega)]
      have h2 : tok.length + (run'.takeWhile isWordChar).length - tok.length =
          (run'.takeWhile isWordChar).length := by omega
      rw [h2]
      exact hx1
    rw [this]
    simp [hp2, hx2]

theorem token_findEnd_isSome {s tok : List Char} (hpre : tok <+: s)
    (htok : isOpaqueToken tok = true) :
    (findEnd (s.takeWhile isClassChar) ((s.dropWhile isClassChar).head?)).isSome = true := by
  obtain ⟨e, he⟩ := token_tryEnd hpre htok
  exact findEndDown_complete he (tryEnd_le_length he).2

end Spec2Proof

namespace Spec2Proof

/-! Section: more helpers about list ends -/

theorem getLast?_cons_ne {α : Type} {a : α} {l : List α} (h : l ≠ []) :
    (a :: l).getLast? = l.getLast? := by
  rcases l with _ | ⟨b, l⟩
  · exact absurd rfl h
  · exact List.getLast?_cons_cons

theorem getLast?_append_right {α : Type} (l₁ : List α) {l₂ : List α} (h : l₂ ≠ []) :
    (l₁ ++ l₂).getLast? = l₂.getLast? := by
  induction l₁ with
  | nil => rfl
  | cons a l₁ ih =>
    rw [List.cons_append, getLast?_cons_ne (by simp [h]), ih]

theorem suffix_getLast? {α : Type} {t l : List α} (h : t <:+ l) (ht : t ≠ []) :
    l.getLast? = t.getLast? := by
  obtain ⟨w, rfl⟩ := h
  exact getLast?_append_right w ht

theorem mem_of_getLast?_eq {α : Type} {l : List α} {a : α} (h : l.getLast? = some a) :
    a ∈ l := by
  induction l with
  | nil => cases h
  | cons x l ih =>
    rcases l with _ | ⟨y, l'⟩
    · cases h
      exact List.mem_singleton_self x
    · rw [List.getLast?_cons_cons] at h
      exact List.mem_cons_of_mem x (ih h)

theorem isOpaqueToken_cons_word {c : Char} {t : List Char} (hc : isWordChar c = true)
    (ht : isOpaqueToken t = true) : isOpaqueToken (c :: t) = true := by
  simp only [isOpaqueToken, Bool.and_eq_true, decide_eq_true_eq] at ht ⊢
  obtain ⟨⟨⟨h1, h2⟩, _⟩, h4⟩ := ht
  refine ⟨⟨⟨?_, ?_⟩, ?_⟩, ?_⟩
  · simp only [List.length_cons]
    omega
  · simp [List.all_cons, word_class hc, h2]
  · simpa using hc
  · rcases t with _ | ⟨b, t'⟩
    · simp at h1
    · exact h4

/-! Section: what a successful long-token match says about what follows it -/

theorem tryEnd_next_info {run : List Char} {next : Option Char} {e : Nat}
    (h : tryEnd run next e = true) :
    ∃ p, run.get? (e - 1) = some p ∧
      ((e = run.length ∧ bnd p next = true) ∨
       (e < run.length ∧ ∃ d, run.get? e = some d ∧ (isWordChar p != isWordChar d) = true)) := by
  rw [tryEnd] at h
  split at h
  · cases h
  · rcases hg : run.get? (e - 1) with _ | p
    · rw [hg] at h
      cases h
    · rw [hg] at h
      dsimp only at h
      refine ⟨p, rfl, ?_⟩
      by_cases he : e = run.length
      · rw [if_pos he] at h
        exact Or.inl ⟨he, h⟩
      · rw [if_neg he] at h
        rcases hd : run.get? e with _ | d
        · rw [hd] at h
          cases h
        · rw [hd] at h
          have hel : e < run.length := by
            obtain ⟨hlt, _⟩ := List.get?_eq_some.mp hd
            omega
          exact Or.inr ⟨hel, d, rfl, h⟩

theorem head?_drop_eq_get? {α : Type} (l : List α) (n : Nat) :
    (l.drop n).head? = l.get? n := by
  induction l generalizing n with
  | nil => simp
  | cons a l ih =>
    cases n with
    | zero => rfl
    | succ n => simpa using ih n

theorem drop_length_takeWhile {α : Type} (p : α → Bool) (l : List α) :
    l.drop (l.takeWhile p).length = l.dropWhile p := by
  induction l with
  | nil => rfl
  | cons a l ih =>
    by_cases hp : p a
    · rw [List.takeWhile_cons, if_pos hp, List.dropWhile_cons, if_pos hp,
        List.length_cons, List.drop_succ_cons, ih]
    · rw [List.takeWhile_cons, if_neg hp, List.dropWhile_cons, if_neg hp]
      rfl

/-- After a successful match ending at `e` with a word character as its last
matched character, the character at position `e` (if any) is not a word
character: no opaque token can start right after the match. -/
theorem inv_after_match {c : Char} {cs : List Char} {e : Nat}
    (hfe : findEnd ((c :: cs).takeWhile isClassChar)
      (((c :: cs).dropWhile isClassChar).head?) = some e)
    (hw : (match ((c :: cs).takeWhile isClassChar).get? (e - 1) with
           | some p => isWordChar p
           | none => false) = true) :
    ∀ tok, isOpaqueToken tok = true → ¬ tok <+: ((c :: cs).drop e) := by
  intro tok htok hpre
  obtain ⟨_, _, ⟨c0, t0, rfl, hw0⟩, _⟩ := isOpaqueToken_spec htok
  have htr := (findEndDown_bounds hfe).2.2
  obtain ⟨p, hp, hinfo⟩ := tryEnd_next_info htr
  rw [hp] at hw
  dsimp only at hw
  have hhead : ((c :: cs).drop e).head? = some c0 := by
    obtain ⟨r, hr⟩ := hpre
    rw [← hr]
    rfl
  rcases hinfo with ⟨he, _⟩ | ⟨he, d, hd, hne⟩
  · -- the match ends exactly at the end of the class run
    have hdr : (c :: cs).drop e = (c :: cs).dropWhile isClassChar := by
      rw [he, drop_length_takeWhile]
    rw [hdr] at hhead
    have hcf := class_false_word (dropWhile_head?_false isClassChar (c :: cs) hhead)
    rw [hcf] at hw0
    cases hw0
  · -- the match ends inside the class run, at a word/non-word boundary
    have hpr : (c :: cs).takeWhile isClassChar <+: c :: cs := List.takeWhile_prefix _
    have hge : (c :: cs).get? e = some d := by
      rw [prefix_get? hpr he, hd]
    rw [head?_drop_eq_get?] at hhead
    rw [hge] at hhead
    cases hhead
    rw [hw, hw0] at hne
    simp at hne

end Spec2Proof

namespace Spec2Proof

/-! Section: structural lemmas about the long-token scanner output -/

theorem marker_append_cons (X : List Char) :
    redactedTokenMarker.toList ++ X = '[' :: (redactedTokenMarker.toList.tail ++ X) := rfl

theorem takeWhile_class_marker (X : List Char) :
    (redactedTokenMarker.toList ++ X).takeWhile isClassChar = [] := by
  rw [marker_append_cons, List.takeWhile_cons, if_neg (by decide)]

/-- Any all-class prefix of the scanner output is a prefix of the class run of
the input: replacements start with a non-class bracket, and copied characters
are copied in order. -/
theorem scan4_takeWhile_class (prevW : Bool) (s : List Char) :
    (scan4 prevW s).takeWhile isClassChar <+: s.takeWhile isClassChar := by
  induction prevW, s using scan4.induct with
  | case1 prevW => simp [scan4_nil]
  | case2 prevW c s hguard e hfe ih =>
    rw [scan4_cons_match hguard hfe, takeWhile_class_marker]
    exact List.nil_prefix
  | case3 prevW c s hguard hfe ih =>
    rw [scan4_cons_none hguard hfe]
    have hc : isClassChar c = true := by
      have hg := hguard
      simp only [Bool.and_eq_true] at hg
      exact hg.1
    rw [List.takeWhile_cons, if_pos hc, List.takeWhile_cons, if_pos hc]
    exact (List.cons_prefix_cons).mpr ⟨rfl, ih⟩
  | case4 prevW c s hguard ih =>
    rw [scan4_cons_skip hguard]
    by_cases hc : isClassChar c
    · rw [List.takeWhile_cons, if_pos hc, List.takeWhile_cons, if_pos hc]
      exact (List.cons_prefix_cons).mpr ⟨rfl, ih⟩
    · rw [List.takeWhile_cons, if_neg hc]
      exact List.nil_prefix

/-- Every character of the scanner output comes from the input or from the
replacement marker. -/
theorem scan4_mem (prevW : Bool) (s : List Char) :
    ∀ x ∈ scan4 prevW s, x ∈ s ∨ x ∈ redactedTokenMarker.toList := by
  induction prevW, s using scan4.induct with
  | case1 prevW => simp [scan4_nil]
  | case2 prevW c s hguard e hfe ih =>
    rw [scan4_cons_match hguard hfe]
    intro x hx
    rcases List.mem_append.mp hx with hx | hx
    · exact Or.inr hx
    · rcases ih x hx with hx | hx
      · exact Or.inl (List.mem_of_mem_drop hx)
      · exact Or.inr hx
  | case3 prevW c s hguard hfe ih =>
    rw [scan4_cons_none hguard hfe]
    intro x hx
    rcases List.mem_cons.mp hx with rfl | hx
    · exact Or.inl (List.mem_cons_self x s)
    · rcases ih x hx with hx | hx
      · exact Or.inl (List.mem_cons_of_mem c hx)
      · exact Or.inr hx
  | case4 prevW c s hguard ih =>
    rw [scan4_cons_skip hguard]
    intro x hx
    rcases List.mem_cons.mp hx with rfl | hx
    · exact Or.inl (List.mem_cons_self x s)
    · rcases ih x hx with hx | hx
      · exact Or.inl (List.mem_cons_of_mem c hx)
      · exact Or.inr hx

/-- Main output property of the long-token scanner: its output never contains
any opaque token (40+ class chars with word-character endpoints), provided
that when `prevW = true` no opaque token sits at the very start of the
remaining input (trivially true for a whole scan, which starts with
`prevW = false`). -/
theorem scan4_noBad : ∀ (prevW : Bool) (s : List Char),
    (prevW = true → ∀ tok, isOpaqueToken tok = true → ¬ tok <+: s) →
    ∀ tok, isOpaqueToken tok = true → ¬ tok <:+: scan4 prevW s := by
  intro prevW s
  induction prevW, s using scan4.induct with
  | case1 prevW =>
    intro _ tok htok hcontra
    rw [scan4_nil] at hcontra
    obtain ⟨u, v, huv⟩ := hcontra
    have h1 := List.append_eq_nil.mp huv
    have h2 := (List.append_eq_nil.mp h1.1).2
    have := (isOpaqueToken_spec htok).1
    rw [h2] at this
    simp at this
  | case2 prevW c s hguard e hfe ih =>
    intro _ tok htok hcontra
    rw [scan4_cons_match hguard hfe] at hcontra
    rcases infix_append_cases hcontra with h | h | ⟨t₁, t₂, ht, ht1, ht2, hs1, hs2⟩
    · have hle := h.length_le
      have h40 := (isOpaqueToken_spec htok).1
      have : redactedTokenMarker.toList.length = 16 := by decide
      omega
    · exact ih (fun hw' => inv_after_match hfe hw') tok htok h
    · -- tok spans the marker boundary: it would contain the final bracket
      have hlast : t₁.getLast? = some ']' := by
        rw [← suffix_getLast? hs1 ht1]
        decide
      have hmem : (']' : Char) ∈ tok := by
        rw [ht]
        exact List.mem_append.mpr (Or.inl (mem_of_getLast?_eq hlast))
      have hall := (isOpaqueToken_spec htok).2.1
      have := List.all_eq_true.mp hall ']' hmem
      simp [isClassChar, isWordChar] at this
  | case3 prevW c s hguard hfe ih =>
    intro hinv tok htok hcontra
    rw [scan4_cons_none hguard hfe] at hcontra
    have key : ∀ tok', isOpaqueToken tok' = true → tok' <+: c :: s → False := by
      intro tok' htok' hpre'
      have := token_findEnd_isSome hpre' htok'
      rw [hfe] at this
      cases this
    rcases infix_cons_cases hcontra with hp | hi
    · obtain ⟨hlen, hall, ⟨c0, t0, heq, hw0⟩, _⟩ := isOpaqueToken_spec htok
      subst heq
      obtain ⟨hc0, htp⟩ := List.cons_prefix_cons.mp hp
      subst hc0
      have htall : t0.all isClassChar = true := by
        simp only [List.all_cons, Bool.and_eq_true] at hall
        exact hall.2
      have h1 : t0 <+: (scan4 (isWordChar c0) s).takeWhile isClassChar :=
        prefix_takeWhile_of_all htp htall
      have h2 : t0 <+: s :=
        (h1.trans (scan4_takeWhile_class _ s)).trans (List.takeWhile_prefix _)
      exact key _ htok (List.cons_prefix_cons.mpr ⟨rfl, h2⟩)
    · refine ih ?_ tok htok hi
      intro hwc tok' htok' hpre'
      exact key _ (isOpaqueToken_cons_word hwc htok')
        (List.cons_prefix_cons.mpr ⟨rfl, hpre'⟩)
  | case4 prevW c s hguard ih =>
    intro hinv tok htok hcontra
    rw [scan4_cons_skip hguard] at hcontra
    have hprev : isWordChar c = true → prevW = true := by
      intro hwc
      rcases hq : prevW with _ | _
      · exfalso
        apply hguard
        rw [word_class hwc, hwc, hq]
        rfl
      · rfl
    rcases infix_cons_cases hcontra with hp | hi
    · obtain ⟨hlen, hall, ⟨c0, t0, heq, hw0⟩, _⟩ := isOpaqueToken_spec htok
      subst heq
      obtain ⟨hc0, htp⟩ := List.cons_prefix_cons.mp hp
      subst hc0
      have htall : t0.all isClassChar = true := by
        simp only [List.all_cons, Bool.and_eq_true] at hall
        exact hall.2
      have h2 : t0 <+: s :=
        ((prefix_takeWhile_of_all htp htall).trans
          (scan4_takeWhile_class _ s)).trans (List.takeWhile_prefix _)
      exact hinv (hprev hw0) _ htok (List.cons_prefix_cons.mpr ⟨rfl, h2⟩)
    · refine ih ?_ tok htok hi
      intro hwc tok' htok' hpre'
      exact hinv (hprev hwc) _ (isOpaqueToken_cons_word hwc htok')
        (List.cons_prefix_cons.mpr ⟨rfl, hpre'⟩)

end Spec2Proof

namespace Spec2Proof

/-! Section: the long-token scanner fires on any first line holding a token -/

theorem scan4_marker : ∀ (prevW : Bool) (s : List Char),
    ∀ pre tok post, s = pre ++ tok ++ post → isOpaqueToken tok = true →
    (pre = [] → prevW = false) →
    (∀ x, pre.getLast? = some x → isWordChar x = false) →
    redactedTokenMarker.toList <:+: scan4 prevW s := by
  intro prevW s
  induction prevW, s using scan4.induct with
  | case1 prevW =>
    intro pre tok post heq htok _ _
    have h40 := (isOpaqueToken_spec htok).1
    have hl := congrArg List.length heq
    simp only [List.length_nil, List.length_append] at hl
    omega
  | case2 prevW c s hguard e hfe ih =>
    intro pre tok post heq htok h1 h2
    rw [scan4_cons_match hguard hfe]
    exact ⟨[], _, by rw [List.nil_append]⟩
  | case3 prevW c s hguard hfe ih =>
    intro pre tok post heq htok h1 h2
    rw [scan4_cons_none hguard hfe]
    rcases pre with _ | ⟨p, pre'⟩
    · exfalso
      simp only [List.nil_append] at heq
      have hpre : tok <+: c :: s := ⟨post, heq.symm⟩
      have hsome := token_findEnd_isSome hpre htok
      rw [hfe] at hsome
      cases hsome
    · simp only [List.cons_append] at heq
      injection heq with hcp heq'
      have hlast' : ∀ x, pre'.getLast? = some x → isWordChar x = false := by
        intro x hx
        have hne : pre' ≠ [] := by
          intro hc
          rw [hc] at hx
          cases hx
        exact h2 x (by rw [getLast?_cons_ne hne]; exact hx)
      have hpre0 : pre' = [] → isWordChar c = false := by
        intro hpe
        subst hpe
        rw [hcp]
        exact h2 p rfl
      exact List.infix_cons (ih pre' tok post heq' htok hpre0 hlast')
  | case4 prevW c s hguard ih =>
    intro pre tok post heq htok h1 h2
    rw [scan4_cons_skip hguard]
    rcases pre with _ | ⟨p, pre'⟩
    · exfalso
      simp only [List.nil_append] at heq
      obtain ⟨_, _, ⟨c0, t0, heq0, hw0⟩, _⟩ := isOpaqueToken_spec htok
      apply hguard
      have hc0 : c = c0 := by
        rw [heq0] at heq
        simp only [List.cons_append, List.cons.injEq] at heq
        exact heq.1
      rw [hc0, word_class hw0, hw0, h1 rfl]
      rfl
    · simp only [List.cons_append] at heq
      injection heq with hcp heq'
      have hlast' : ∀ x, pre'.getLast? = some x → isWordChar x = false := by
        intro x hx
        have hne : pre' ≠ [] := by
          intro hc
          rw [hc] at hx
          cases hx
        exact h2 x (by rw [getLast?_cons_ne hne]; exact hx)
      have hpre0 : pre' = [] → isWordChar c = false := by
        intro hpe
        subst hpe
        rw [hcp]
        exact h2 p rfl
      exact List.infix_cons (ih pre' tok post heq' htok hpre0 hlast')

/-- Any decomposition holding an opaque token can be normalised so that the
part before the token does not end in a word character (trailing word
characters are absorbed into the token). -/
theorem normalize_decomp : ∀ (pre tok : List Char), isOpaqueToken tok = true →
    ∃ pre' tok', pre ++ tok = pre' ++ tok' ∧ isOpaqueToken tok' = true ∧
      (∀ x, pre'.getLast? = some x → isWordChar x = false) := by
  intro pre
  induction pre using List.reverseRecOn with
  | nil =>
    intro tok h
    exact ⟨[], tok, rfl, h, by intro x hx; cases hx⟩
  | append_singleton p w ih =>
    intro tok h
    by_cases hw : isWordChar w = true
    · obtain ⟨pre', tok', heq, h2, h3⟩ := ih (w :: tok) (isOpaqueToken_cons_word hw h)
      exact ⟨pre', tok', by rw [← heq]; simp, h2, h3⟩
    · refine ⟨p ++ [w], tok, rfl, h, ?_⟩
      intro x hx
      rw [List.getLast?_concat] at hx
      cases hx
      simpa using hw

end Spec2Proof

namespace Spec2Proof

/-! Section: the long-token scanner processes each line independently -/

theorem tryEnd_congr_next {run : List Char} {d : Char} (hd : isWordChar d = false) :
    ∀ e, tryEnd run (some d) e = tryEnd run none e := by
  intro e
  rw [tryEnd, tryEnd]
  split
  · rfl
  · rcases run.get? (e - 1) with _ | p
    · rfl
    · dsimp only
      by_cases he : e = run.length
      · rw [if_pos he, if_pos he]
        simp [bnd, hd]
      · rw [if_neg he, if_neg he]

theorem findEndDown_congr {run : List Char} {n1 n2 : Option Char}
    (h : ∀ e, tryEnd run n1 e = tryEnd run n2 e) :
    ∀ k, findEndDown run n1 k = findEndDown run n2 k := by
  intro k
  induction k with
  | zero => rfl
  | succ k ih => rw [findEndDown, findEndDown, h, ih]

theorem findEnd_ext_eq (c : Char) (s B : List Char) :
    findEnd (((c :: s) ++ '\n' :: B).takeWhile isClassChar)
        ((((c :: s) ++ '\n' :: B).dropWhile isClassChar).head?) =
      findEnd ((c :: s).takeWhile isClassChar)
        (((c :: s).dropWhile isClassChar).head?) := by
  have hcl : isClassChar '\n' = false := by decide
  rw [takeWhile_append_sep isClassChar hcl, dropWhile_append_sep isClassChar hcl]
  rcases hdrop : (c :: s).dropWhile isClassChar with _ | ⟨d, rest⟩
  · rw [List.nil_append]
    exact findEndDown_congr (tryEnd_congr_next (by decide)) _
  · rfl

theorem drop_append_le {α : Type} : ∀ {n : Nat} {l₁ l₂ : List α}, n ≤ l₁.length →
    (l₁ ++ l₂).drop n = l₁.drop n ++ l₂ := by
  intro n
  induction n with
  | zero => intro l₁ l₂ _; rfl
  | succ n ih =>
    intro l₁ l₂ h
    rcases l₁ with _ | ⟨a, l₁⟩
    · simp at h
    · simp only [List.cons_append, List.drop_succ_cons]
      exact ih (by simpa using h)

theorem scan4_append_newline : ∀ (prevW : Bool) (A : List Char), '\n' ∉ A →
    ∀ B, scan4 prevW (A ++ '\n' :: B) = scan4 prevW A ++ '\n' :: scan4 false B := by
  intro prevW A
  induction prevW, A using scan4.induct with
  | case1 prevW =>
    intro _ B
    rw [scan4_nil, List.nil_append, List.nil_append,
      scan4_cons_skip (by simp [isClassChar, isWordChar])]
    have hnw : isWordChar '\n' = false := by decide
    rw [hnw]
  | case2 prevW c s hguard e hfe ih =>
    intro hnin B
    have hfe' : findEnd (((c :: s) ++ '\n' :: B).takeWhile isClassChar)
        ((((c :: s) ++ '\n' :: B).dropWhile isClassChar).head?) = some e := by
      rw [findEnd_ext_eq]
      exact hfe
    have he2 : e ≤ (c :: s).length := by
      have hb := findEndDown_bounds hfe
      have hbl := tryEnd_le_length hb.2.2
      have := length_takeWhile_le' isClassChar (c :: s)
      omega
    have hstep : ((c :: s) ++ '\n' :: B) = c :: (s ++ '\n' :: B) := rfl
    rw [hstep] at hfe' ⊢
    rw [scan4_cons_match hguard hfe, @scan4_cons_match prevW c (s ++ '\n' :: B) e hguard hfe']
    have hcl : isClassChar '\n' = false := by decide
    have htk : (c :: (s ++ '\n' :: B)).takeWhile isClassChar =
        (c :: s).takeWhile isClassChar := by
      rw [← hstep, takeWhile_append_sep isClassChar hcl]
    rw [htk]
    have hdr : (c :: (s ++ '\n' :: B)).drop e = (c :: s).drop e ++ '\n' :: B := by
      rw [← hstep, drop_append_le he2]
    rw [hdr]
    have hnin' : ('\n' : Char) ∉ (c :: s).drop e := by
      intro hmem
      exact hnin (List.mem_of_mem_drop hmem)
    rw [ih hnin' B, List.append_assoc]
  | case3 prevW c s hguard hfe ih =>
    intro hnin B
    have hfe' : findEnd (((c :: s) ++ '\n' :: B).takeWhile isClassChar)
        ((((c :: s) ++ '\n' :: B).dropWhile isClassChar).head?) = none := by
      rw [findEnd_ext_eq]
      exact hfe
    have hstep : ((c :: s) ++ '\n' :: B) = c :: (s ++ '\n' :: B) := rfl
    rw [hstep] at hfe'
    rw [hstep, scan4_cons_none hguard hfe', scan4_cons_none hguard hfe]
    have hnin' : ('\n' : Char) ∉ s := fun hm => hnin (List.mem_cons_of_mem c hm)
    rw [ih hnin' B]
    rfl
  | case4 prevW c s hguard ih =>
    intro hnin B
    have hstep : ((c :: s) ++ '\n' :: B) = c :: (s ++ '\n' :: B) := rfl
    rw [hstep, scan4_cons_skip hguard, scan4_cons_skip hguard]
    have hnin' : ('\n' : Char) ∉ s := fun hm => hnin (List.mem_cons_of_mem c hm)
    rw [ih hnin' B]
    rfl

end Spec2Proof

namespace Spec2Proof

/-! Section: the env-var scanner and separators it can never cross -/

theorem matchLit_chrEq_some {lit : List Char} : ∀ {s r : List Char},
    matchLit chrEq lit s = some r ↔ s = lit ++ r := by
  induction lit with
  | nil =>
    intro s r
    simp only [matchLit, List.nil_append, Option.some.injEq]
  | cons l ls ih =>
    intro s r
    rcases s with _ | ⟨c, cs⟩
    · simp [matchLit]
    · rw [matchLit]
      by_cases hc : chrEq l c = true
      · rw [if_pos hc]
        have hlc : l = c := by simpa [chrEq] using hc
        subst hlc
        rw [ih]
        simp
      · rw [if_neg hc]
        have hne : ¬ c = l := fun h => hc (by simp [chrEq, h])
        simp [hne]

theorem matchEnvVar_cons_ne {c : Char} (hc : ¬ c = 'p') (s : List Char) :
    matchEnvVar (c :: s) = none := by
  rw [matchEnvVar, matchLitN]
  have hml : matchLit chrEq envLit (c :: s) = none := by
    rcases hm : matchLit chrEq envLit (c :: s) with _ | r
    · rfl
    · exfalso
      have hs := matchLit_chrEq_some.mp hm
      have h3 : c :: s = 'p' :: (envLit.tail ++ r) := by rw [hs]; rfl
      injection h3 with h4 _
      exact hc h4
  rw [hml]

theorem matchPlus_cons_false {p : Char → Bool} {c : Char} (hp : p c = false)
    (cs : List Char) : matchPlus p (c :: cs) = none := by
  rw [matchPlus, if_neg (by simp [hp])]

theorem matchPlus_cons_true {p : Char → Bool} {c : Char} (hp : p c = true)
    (cs : List Char) :
    matchPlus p (c :: cs) = some ((cs.takeWhile p).length + 1, cs.dropWhile p) := by
  rw [matchPlus, if_pos hp]
  rfl

theorem matchPlus_bounds {p : Char → Bool} {s : List Char} {n : Nat} {s' : List Char}
    (h : matchPlus p s = some (n, s')) : 1 ≤ n ∧ n ≤ s.length := by
  rcases s with _ | ⟨c, cs⟩
  · cases h
  · rw [matchPlus] at h
    by_cases hp : p c
    · rw [if_pos hp] at h
      dsimp only at h
      cases h
      have := length_takeWhile_le' p cs
      simp only [matchStar, List.length_cons]
      omega
    · rw [if_neg hp] at h
      cases h

theorem matchEnvVar_le {s : List Char} {k : Nat} (h : matchEnvVar s = some k) :
    k + 1 ≤ s.length := by
  rw [matchEnvVar, matchLitN] at h
  rcases hml : matchLit chrEq envLit s with _ | r
  · rw [hml] at h
    cases h
  · rw [hml] at h
    dsimp only at h
    have hs := matchLit_chrEq_some.mp hml
    rcases hmp : matchPlus isEnvTail r with _ | ⟨n2, s2⟩
    · rw [hmp] at h
      cases h
    · rw [hmp] at h
      cases h
      have hb := matchPlus_bounds hmp
      have hl : envLit.length = 12 := by decide
      rw [hs, List.length_append]
      omega

theorem matchEnvVar_stable (d : Char) (hd1 : isEnvTail d = false) (hd2 : d ∉ envLit)
    (A B : List Char) : matchEnvVar (A ++ d :: B) = matchEnvVar A := by
  rw [matchEnvVar, matchEnvVar, matchLitN, matchLitN]
  rcases hml : matchLit chrEq envLit A with _ | r
  · have hex : matchLit chrEq envLit (A ++ d :: B) = none := by
      rcases hme : matchLit chrEq envLit (A ++ d :: B) with _ | r'
      · rfl
      · exfalso
        have hs := matchLit_chrEq_some.mp hme
        rcases List.append_eq_append_iff.mp hs with ⟨a', ha1, ha2⟩ | ⟨c', hc1, hc2⟩
        · rcases a' with _ | ⟨x, a''⟩
          · rw [List.append_nil] at ha1
            have : matchLit chrEq envLit A = some [] := by
              rw [matchLit_chrEq_some, ← ha1, List.append_nil]
            rw [this] at hml
            cases hml
          · have hx : x = d := by
              simp only [List.cons_append, List.cons.injEq] at ha2
              exact ha2.1.symm
            apply hd2
            rw [← hx, ha1]
            exact List.mem_append.mpr (Or.inr (List.mem_cons_self x a''))
        · have : matchLit chrEq envLit A = some c' := matchLit_chrEq_some.mpr hc1
          rw [this] at hml
          cases hml
    rw [hex]
  · have hsA := matchLit_chrEq_some.mp hml
    have hext : matchLit chrEq envLit (A ++ d :: B) = some (r ++ d :: B) := by
      apply matchLit_chrEq_some.mpr
      rw [hsA, List.append_assoc]
    rw [hext]
    dsimp only
    rcases r with _ | ⟨x, r'⟩
    · rw [List.nil_append, matchPlus_cons_false hd1]
      rfl
    · rw [List.cons_append]
      by_cases hx : isEnvTail x = true
      · rw [matchPlus_cons_true hx, matchPlus_cons_true hx,
          takeWhile_append_sep isEnvTail hd1]
      · have hx' : isEnvTail x = false := by
          rcases hb : isEnvTail x
          · rfl
          · exact absurd hb hx
        rw [matchPlus_cons_false hx', matchPlus_cons_false hx']

/-- A scanner whose matcher can never see across a separator block `D`
processes the two sides of `D` independently. -/
theorem scanWith_append_stable (m : List Char → Option Nat) (repl D : List Char)
    (hstable : ∀ A B, m (A ++ (D ++ B)) = m A)
    (hle : ∀ (s : List Char) (k : Nat), m s = some k → k + 1 ≤ s.length)
    (hbase : ∀ B, scanWith m repl (D ++ B) = D ++ scanWith m repl B) :
    ∀ A B, scanWith m repl (A ++ (D ++ B)) =
      scanWith m repl A ++ (D ++ scanWith m repl B) := by
  have aux : ∀ (n : Nat) (A : List Char), A.length ≤ n → ∀ B,
      scanWith m repl (A ++ (D ++ B)) =
        scanWith m repl A ++ (D ++ scanWith m repl B) := by
    intro n
    induction n with
    | zero =>
      intro A hA B
      have hA0 : A = [] := List.length_eq_zero.mp (Nat.le_zero.mp hA)
      subst hA0
      rw [List.nil_append, hbase, scanWith_nil, List.nil_append]
    | succ n ih =>
      intro A hA B
      rcases A with _ | ⟨c, cs⟩
      · rw [List.nil_append, hbase, scanWith_nil, List.nil_append]
      · have hm := hstable (c :: cs) B
        have hshape : (c :: cs) ++ (D ++ B) = c :: (cs ++ (D ++ B)) := rfl
        rw [hshape] at hm
        rcases hm2 : m (c :: cs) with _ | k
        · rw [hm2] at hm
          rw [hshape, scanWith_cons_none hm, scanWith_cons_none hm2,
            ih cs (by simpa using hA) B]
          rfl
        · rw [hm2] at hm
          have hk := hle (c :: cs) k hm2
          simp only [List.length_cons] at hk
          rw [hshape, scanWith_cons_some hm, scanWith_cons_some hm2]
          have hdrop : (cs ++ (D ++ B)).drop k = cs.drop k ++ (D ++ B) :=
            drop_append_le (by omega)
          rw [hdrop, ih (cs.drop k) ?_ B, List.append_assoc]
          simp only [List.length_drop]
          simp only [List.length_cons] at hA
          omega
  intro A B
  exact aux A.length A (Nat.le_refl _) B

theorem scan5_cons_ne {c : Char} (hc : ¬ c = 'p') (s : List Char) :
    scan5 (c :: s) = c :: scan5 s :=
  scanWith_cons_none (matchEnvVar_cons_ne hc s)

theorem scan5_append_newline (A B : List Char) :
    scan5 (A ++ '\n' :: B) = scan5 A ++ '\n' :: scan5 B := by
  exact scanWith_append_stable matchEnvVar envVarMarker.toList ['\n']
    (fun A' B' => matchEnvVar_stable '\n' (by decide) (by decide) A' B')
    (fun s k h => matchEnvVar_le h)
    (fun B' => scan5_cons_ne (by decide) B')
    A B

theorem scan5_marker_base (B : List Char) :
    scan5 (redactedTokenMarker.toList ++ B) = redactedTokenMarker.toList ++ scan5 B := by
  show scan5 ('[' :: 'R' :: 'E' :: 'D' :: 'A' :: 'C' :: 'T' :: 'E' :: 'D' :: '_' ::
    'T' :: 'O' :: 'K' :: 'E' :: 'N' :: ']' :: B) = _
  rw [scan5_cons_ne (by decide), scan5_cons_ne (by decide), scan5_cons_ne (by decide),
    scan5_cons_ne (by decide), scan5_cons_ne (by decide), scan5_cons_ne (by decide),
    scan5_cons_ne (by decide), scan5_cons_ne (by decide), scan5_cons_ne (by decide),
    scan5_cons_ne (by decide), scan5_cons_ne (by decide), scan5_cons_ne (by decide),
    scan5_cons_ne (by decide), scan5_cons_ne (by decide), scan5_cons_ne (by decide),
    scan5_cons_ne (by decide)]
  rfl

theorem scan5_append_marker (A B : List Char) :
    scan5 (A ++ (redactedTokenMarker.toList ++ B)) =
      scan5 A ++ (redactedTokenMarker.toList ++ scan5 B) := by
  refine scanWith_append_stable matchEnvVar envVarMarker.toList
    redactedTokenMarker.toList ?_ (fun s k h => matchEnvVar_le h) scan5_marker_base A B
  intro A' B'
  rw [marker_append_cons B']
  exact matchEnvVar_stable '[' (by decide) (by decide) A'
    (redactedTokenMarker.toList.tail ++ B')

end Spec2Proof

namespace Spec2Proof

/-! Section: output structure of the env-var scanner -/

theorem scanWith_mem (m : List Char → Option Nat) (repl : List Char) :
    ∀ s, ∀ x ∈ scanWith m repl s, x ∈ s ∨ x ∈ repl := by
  have aux : ∀ (n : Nat) (s : List Char), s.length ≤ n →
      ∀ x ∈ scanWith m repl s, x ∈ s ∨ x ∈ repl := by
    intro n
    induction n with
    | zero =>
      intro s hs x hx
      have hs0 : s = [] := List.length_eq_zero.mp (Nat.le_zero.mp hs)
      subst hs0
      rw [scanWith_nil] at hx
      cases hx
    | succ n ih =>
      intro s hs x hx
      rcases s with _ | ⟨c, cs⟩
      · rw [scanWith_nil] at hx
        cases hx
      · rcases hm : m (c :: cs) with _ | k
        · rw [scanWith_cons_none hm] at hx
          rcases List.mem_cons.mp hx with rfl | hx
          · exact Or.inl (List.mem_cons_self _ _)
          · rcases ih cs (by simpa using hs) x hx with h | h
            · exact Or.inl (List.mem_cons_of_mem c h)
            · exact Or.inr h
        · rw [scanWith_cons_some hm] at hx
          have hlen : (cs.drop k).length ≤ n := by
            simp only [List.length_drop]
            simp only [List.length_cons] at hs
            omega
          rcases List.mem_append.mp hx with h | h
          · exact Or.inr h
          · rcases ih (cs.drop k) hlen x h with h2 | h2
            · exact Or.inl (List.mem_cons_of_mem c (List.mem_of_mem_drop h2))
            · exact Or.inr h2
  intro s
  exact aux s.length s (Nat.le_refl _)

theorem scan5_nil : scan5 [] = [] := scanWith_nil _ _

theorem takeWhile_class_envMarker (X : List Char) :
    (envVarMarker.toList ++ X).takeWhile isClassChar = [] := by
  have h0 : envVarMarker.toList ++ X = '[' :: (envVarMarker.toList.tail ++ X) := rfl
  rw [h0, List.takeWhile_cons, if_neg (by decide)]

theorem scan5_takeWhile_class (s : List Char) :
    (scan5 s).takeWhile isClassChar <+: s.takeWhile isClassChar := by
  have aux : ∀ (n : Nat) (s : List Char), s.length ≤ n →
      (scan5 s).takeWhile isClassChar <+: s.takeWhile isClassChar := by
    intro n
    induction n with
    | zero =>
      intro s hs
      have hs0 : s = [] := List.length_eq_zero.mp (Nat.le_zero.mp hs)
      subst hs0
      rw [scan5_nil]
    | succ n ih =>
      intro s hs
      rcases s with _ | ⟨c, cs⟩
      · rw [scan5_nil]
      · rcases hm : matchEnvVar (c :: cs) with _ | k
        · rw [show scan5 (c :: cs) = c :: scan5 cs from scanWith_cons_none hm]
          by_cases hc : isClassChar c = true
          · rw [List.takeWhile_cons, if_pos hc, List.takeWhile_cons, if_pos hc]
            exact (List.cons_prefix_cons).mpr ⟨rfl, ih cs (by simpa using hs)⟩
          · rw [List.takeWhile_cons, if_neg hc]
            exact List.nil_prefix
        · rw [show scan5 (c :: cs) = envVarMarker.toList ++ scan5 (cs.drop k) from
            scanWith_cons_some hm, takeWhile_class_envMarker]
          exact List.nil_prefix
  exact aux s.length s (Nat.le_refl _)

theorem envVarMarker_getLast : envVarMarker.toList.getLast? = some ']' := by decide

theorem scan5_infix_opaque {tok : List Char} (htok : isOpaqueToken tok = true) :
    ∀ s, tok <:+: scan5 s → tok <:+: s := by
  have aux : ∀ (n : Nat) (s : List Char), s.length ≤ n →
      tok <:+: scan5 s → tok <:+: s := by
    intro n
    induction n with
    | zero =>
      intro s hs h
      have hs0 : s = [] := List.length_eq_zero.mp (Nat.le_zero.mp hs)
      subst hs0
      rw [scan5_nil] at h
      exact h
    | succ n ih =>
      intro s hs h
      rcases s with _ | ⟨c, cs⟩
      · rw [scan5_nil] at h
        exact h
      · rcases hm : matchEnvVar (c :: cs) with _ | k
        · rw [show scan5 (c :: cs) = c :: scan5 cs from scanWith_cons_none hm] at h
          rcases infix_cons_cases h with hp | hi
          · obtain ⟨hlen, hall, ⟨c0, t0, heq, hw0⟩, _⟩ := isOpaqueToken_spec htok
            subst heq
            obtain ⟨hc0, htp⟩ := List.cons_prefix_cons.mp hp
            subst hc0
            have htall : t0.all isClassChar = true := by
              simp only [List.all_cons, Bool.and_eq_true] at hall
              exact hall.2
            have h2 : t0 <+: cs :=
              ((prefix_takeWhile_of_all htp htall).trans
                (scan5_takeWhile_class cs)).trans (List.takeWhile_prefix _)
            exact (List.cons_prefix_cons.mpr ⟨rfl, h2⟩).isInfix
          · exact List.infix_cons (ih cs (by simpa using hs) hi)
        · rw [show scan5 (c :: cs) = envVarMarker.toList ++ scan5 (cs.drop k) from
            scanWith_cons_some hm] at h
          rcases infix_append_cases h with h1 | h1 | ⟨t₁, t₂, ht, ht1, ht2, hs1, hs2⟩
          · have hle := h1.length_le
            have h40 := (isOpaqueToken_spec htok).1
            have h9 : envVarMarker.toList.length = 9 := by decide
            omega
          · have hlen : (cs.drop k).length ≤ n := by
              simp only [List.length_drop]
              simp only [List.length_cons] at hs
              omega
            have h2 := ih (cs.drop k) hlen h1
            exact List.infix_cons (h2.trans (List.drop_suffix k cs).isInfix)
          · have hlast : t₁.getLast? = some ']' := by
              rw [← suffix_getLast? hs1 ht1]
              exact envVarMarker_getLast
            have hmem : (']' : Char) ∈ tok := by
              rw [ht]
              exact List.mem_append.mpr (Or.inl (mem_of_getLast?_eq hlast))
            have hall := (isOpaqueToken_spec htok).2.1
            have hcl := List.all_eq_true.mp hall ']' hmem
            simp [isClassChar, isWordChar] at hcl
  intro s
  exact aux s.length s (Nat.le_refl _)

end Spec2Proof

namespace Spec2Proof

/-! Section: first-line extraction -/

theorem firstLine_no_newline (s : List Char) : ('\n' : Char) ∉ firstLine s := by
  intro h
  have := List.mem_takeWhile_imp h
  simp at this

theorem takeWhile_neq_self {X : List Char} (h : ('\n' : Char) ∉ X) :
    X.takeWhile (fun c => c != '\n') = X := by
  induction X with
  | nil => rfl
  | cons c cs ih =>
    have hc : (c != '\n') = true := by
      simp only [bne_iff_ne, ne_eq]
      intro hh
      exact h (hh ▸ List.mem_cons_self c cs)
    rw [List.takeWhile_cons, if_pos hc, ih (fun hm => h (List.mem_cons_of_mem c hm))]

theorem takeWhile_newline_append (X Y : List Char) :
    (X ++ '\n' :: Y).takeWhile (fun c => c != '\n') =
      X.takeWhile (fun c => c != '\n') := by
  induction X with
  | nil => rfl
  | cons c cs ih =>
    by_cases hc : (c != '\n') = true
    · simp only [List.cons_append, List.takeWhile_cons, if_pos hc, ih]
    · simp only [List.cons_append, List.takeWhile_cons, if_neg hc]

theorem firstLine_append_newline {X : List Char} (hX : ('\n' : Char) ∉ X)
    (Y : List Char) : firstLine (X ++ '\n' :: Y) = X := by
  rw [firstLine, takeWhile_newline_append, takeWhile_neq_self hX]

theorem firstLine_text (msg stack : List Char) :
    firstLine (msg ++ '\n' :: stack) = firstLine msg := by
  rw [firstLine, firstLine, takeWhile_newline_append]

theorem text_split (msg stack : List Char) :
    ∃ r, msg ++ '\n' :: stack = firstLine (msg ++ '\n' :: stack) ++ '\n' :: r := by
  have h1 : (msg ++ '\n' :: stack).takeWhile (fun c => c != '\n') ++
      (msg ++ '\n' :: stack).dropWhile (fun c => c != '\n') = msg ++ '\n' :: stack :=
    List.takeWhile_append_dropWhile _ _
  rcases hd : (msg ++ '\n' :: stack).dropWhile (fun c => c != '\n') with _ | ⟨d, r⟩
  · exfalso
    rw [hd, List.append_nil] at h1
    have hmem : ('\n' : Char) ∈ msg ++ '\n' :: stack :=
      List.mem_append.mpr (Or.inr (List.mem_cons_self _ _))
    rw [← h1] at hmem
    have := List.mem_takeWhile_imp hmem
    simp at this
  · have hdn : d = '\n' := by
      have := dropWhile_head?_false (fun c => c != '\n') (msg ++ '\n' :: stack)
        (by rw [hd]; rfl)
      simpa using this
    subst hdn
    refine ⟨r, ?_⟩
    conv_lhs => rw [← h1]
    rw [hd]
    rfl

theorem newline_not_mem_scan4 {fl : List Char} (h : ('\n' : Char) ∉ fl) (prevW : Bool) :
    ('\n' : Char) ∉ scan4 prevW fl := by
  intro hmem
  rcases scan4_mem prevW fl '\n' hmem with h1 | h1
  · exact h h1
  · revert h1
    decide

theorem newline_not_mem_scan5 {A : List Char} (h : ('\n' : Char) ∉ A) :
    ('\n' : Char) ∉ scan5 A := by
  intro hmem
  rcases scanWith_mem matchEnvVar envVarMarker.toList A '\n' hmem with h1 | h1
  · exact h h1
  · revert h1
    decide

/-! Section: fuel-indexed evaluators for the scanners.  The scanners recurse
by well-founded recursion on the remaining length, which the kernel does not
unfold; these structurally recursive versions agree with them whenever the
fuel covers the input length, and let concrete runs be checked by decide. -/

def scanWithF (m : List Char → Option Nat) (repl : List Char) : Nat → List Char → List Char
  | _, [] => []
  | 0, _ :: _ => []
  | fuel + 1, c :: cs =>
    match m (c :: cs) with
    | some k => repl ++ scanWithF m repl fuel (cs.drop k)
    | none => c :: scanWithF m repl fuel cs

theorem scanWithF_eq (m : List Char → Option Nat) (repl : List Char) :
    ∀ (fuel : Nat) (s : List Char), s.length ≤ fuel →
      scanWithF m repl fuel s = scanWith m repl s := by
  intro fuel
  induction fuel with
  | zero =>
    intro s hs
    have h0 : s = [] := List.length_eq_zero.mp (Nat.le_zero.mp hs)
    subst h0
    rw [scanWith_nil]
    rfl
  | succ fuel ih =>
    intro s hs
    cases s with
    | nil =>
      rw [scanWith_nil]
      rfl
    | cons c cs =>
      rcases hm : m (c :: cs) with _ | k
      · rw [scanWith_cons_none hm]
        simp only [scanWithF, hm]
        rw [ih cs (by simp only [List.length_cons] at hs; omega)]
      · rw [scanWith_cons_some hm]
        simp only [scanWithF, hm]
        rw [ih (cs.drop k) (by simp only [List.length_drop, List.length_cons] at hs ⊢; omega)]

def scan4F : Nat → Bool → List Char → List Char
  | _, _, [] => []
  | 0, _, _ :: _ => []
  | fuel + 1, prevW, c :: cs =>
    if isClassChar c && (isWordChar c != prevW) then
      match findEnd ((c :: cs).takeWhile isClassChar)
          (((c :: cs).dropWhile isClassChar).head?) with
      | some e =>
        redactedTokenMarker.toList ++
          scan4F fuel (match ((c :: cs).takeWhile isClassChar).get? (e - 1) with
                       | some p => isWordChar p
                       | none => false) ((c :: cs).drop e)
      | none => c :: scan4F fuel (isWordChar c) cs
    else c :: scan4F fuel (isWordChar c) cs

theorem scan4F_eq : ∀ (fuel : Nat) (prevW : Bool) (s : List Char), s.length ≤ fuel →
    scan4F fuel prevW s = scan4 prevW s := by
  intro fuel
  induction fuel with
  | zero =>
    intro prevW s hs
    have h0 : s = [] := List.length_eq_zero.mp (Nat.le_zero.mp hs)
    subst h0
    rw [scan4_nil]
    rfl
  | succ fuel ih =>
    intro prevW s hs
    cases s with
    | nil =>
      rw [scan4_nil]
      rfl
    | cons c cs =>
      by_cases hg : (isClassChar c && (isWordChar c != prevW)) = true
      · rcases hfe : findEnd ((c :: cs).takeWhile isClassChar)
            (((c :: cs).dropWhile isClassChar).head?) with _ | e
        · rw [scan4_cons_none hg hfe]
          simp only [scan4F, if_pos hg, hfe]
          rw [ih (isWordChar c) cs (by simp only [List.length_cons] at hs; omega)]
        · obtain ⟨h40, -, -⟩ := findEndDown_bounds hfe
          rw [scan4_cons_match hg hfe]
          simp only [scan4F, if_pos hg, hfe]
          rw [ih _ ((c :: cs).drop e)
            (by simp only [List.length_drop, List.length_cons] at hs ⊢; omega)]
      · rw [scan4_cons_skip hg]
        simp only [scan4F, if_neg hg]
        rw [ih (isWordChar c) cs (by simp only [List.length_cons] at hs; omega)]

theorem scan1F_eq (fuel : Nat) (s : List Char) (h : s.length ≤ fuel) :
    scan1 s = scanWithF matchAIza apiKeyMarker.toList fuel s :=
  (scanWithF_eq matchAIza apiKeyMarker.toList fuel s h).symm

theorem scan2F_eq (fuel : Nat) (s : List Char) (h : s.length ≤ fuel) :
    scan2 s = scanWithF matchApiKey apiKeyRedacted.toList fuel s :=
  (scanWithF_eq matchApiKey apiKeyRedacted.toList fuel s h).symm

theorem scan3F_eq (fuel : Nat) (s : List Char) (h : s.length ≤ fuel) :
    scan3 s = scanWithF matchAuth authRedacted.toList fuel s :=
  (scanWithF_eq matchAuth authRedacted.toList fuel s h).symm

theorem scan5F_eq (fuel : Nat) (s : List Char) (h : s.length ≤ fuel) :
    scan5 s = scanWithF matchEnvVar envVarMarker.toList fuel s :=
  (scanWithF_eq matchEnvVar envVarMarker.toList fuel s h).symm

theorem scan4F_eq' (fuel : Nat) (prevW : Bool) (s : List Char) (h : s.length ≤ fuel) :
    scan4 prevW s = scan4F fuel prevW s :=
  (scan4F_eq fuel prevW s h).symm

/-! Section: claim C1 -/

def dash45 : List Char := List.replicate 45 '-'
def alpha45 : List Char := List.replicate 45 'a'
def secondLineA : String := "first line"

/-- C1 counterexample: a 45-character token of dashes is drawn from
[0-9A-Za-z-_] but has no word-character `\b` boundary, so it survives the
sanitizer verbatim with no redaction marker; and a 45-character alphanumeric
token sitting on the second line of the message is cut away by the
first-line truncation, so the output contains no redaction marker in its
place either. -/
theorem sanitizeErrorMessage_counterexample :
    (sanitizeErrorMessage dash45 [] = dash45 ∧
     containsTok dash45 (sanitizeErrorMessage dash45 []) = true ∧
     containsTok redactedTokenMarker.toList (sanitizeErrorMessage dash45 []) = false) ∧
    (sanitizeErrorMessage (secondLineA.toList ++ '\n' :: alpha45) [] = secondLineA.toList ∧
     containsTok redactedTokenMarker.toList
       (sanitizeErrorMessage (secondLineA.toList ++ '\n' :: alpha45) []) = false) := by
  have hd1 : scan1 (dash45 ++ '\n' :: []) = dash45 ++ '\n' :: [] := by
    rw [scan1F_eq 46 (dash45 ++ '\n' :: []) (by decide)]
    decide
  have hd2 : scan2 (dash45 ++ '\n' :: []) = dash45 ++ '\n' :: [] := by
    rw [scan2F_eq 46 (dash45 ++ '\n' :: []) (by decide)]
    decide
  have hd3 : scan3 (dash45 ++ '\n' :: []) = dash45 ++ '\n' :: [] := by
    rw [scan3F_eq 46 (dash45 ++ '\n' :: []) (by decide)]
    decide
  have hd4 : scan4 false (dash45 ++ '\n' :: []) = dash45 ++ '\n' :: [] := by
    rw [scan4F_eq' 46 false (dash45 ++ '\n' :: []) (by decide)]
    decide
  have hd5 : scan5 (dash45 ++ '\n' :: []) = dash45 ++ '\n' :: [] := by
    rw [scan5F_eq 46 (dash45 ++ '\n' :: []) (by decide)]
    decide
  have hA : sanitizeErrorMessage dash45 [] = dash45 := by
    rw [sanitizeErrorMessage, hd1, hd2, hd3, hd4, hd5]
    decide
  have he1 : scan1 ((secondLineA.toList ++ '\n' :: alpha45) ++ '\n' :: []) =
      (secondLineA.toList ++ '\n' :: alpha45) ++ '\n' :: [] := by
    rw [scan1F_eq 100 ((secondLineA.toList ++ '\n' :: alpha45) ++ '\n' :: []) (by decide)]
    decide
  have he2 : scan2 ((secondLineA.toList ++ '\n' :: alpha45) ++ '\n' :: []) =
      (secondLineA.toList ++ '\n' :: alpha45) ++ '\n' :: [] := by
    rw [scan2F_eq 100 ((secondLineA.toList ++ '\n' :: alpha45) ++ '\n' :: []) (by decide)]
    decide
  have he3 : scan3 ((secondLineA.toList ++ '\n' :: alpha45) ++ '\n' :: []) =
      (secondLineA.toList ++ '\n' :: alpha45) ++ '\n' :: [] := by
    rw [scan3F_eq 100 ((secondLineA.toList ++ '\n' :: alpha45) ++ '\n' :: []) (by decide)]
    decide
  have he4 : scan4 false ((secondLineA.toList ++ '\n' :: alpha45) ++ '\n' :: []) =
      secondLineA.toList ++ '\n' :: (redactedTokenMarker.toList ++ ['\n']) := by
    rw [scan4F_eq' 100 false ((secondLineA.toList ++ '\n' :: alpha45) ++ '\n' :: [])
      (by decide)]
    decide
  have he5 : scan5 (secondLineA.toList ++ '\n' :: (redactedTokenMarker.toList ++ ['\n'])) =
      secondLineA.toList ++ '\n' :: (redactedTokenMarker.toList ++ ['\n']) := by
    rw [scan5F_eq 100 (secondLineA.toList ++ '\n' :: (redactedTokenMarker.toList ++ ['\n']))
      (by decide)]
    decide
  have hB : sanitizeErrorMessage (secondLineA.toList ++ '\n' :: alpha45) [] =
      secondLineA.toList := by
    rw [sanitizeErrorMessage, he1, he2, he3, he4, he5]
    decide
  refine ⟨⟨hA, ?_, ?_⟩, hB, ?_⟩
  · rw [hA]
    decide
  · rw [hA]
    decide
  · rw [hB]
    decide

/-- C1 (amended): for every error message and stack, the sanitized string
contains no newline (it is the first line of the sanitized text), and it
never contains any token of 40 or more characters drawn from [0-9A-Za-z-_]
whose first and last characters are word characters — in particular never a
45-character alphanumeric token.  Moreover, if the first line of the message
contains such a token, and the error text triggers none of the other
redaction patterns (the API-key, api-key-assignment and authorization-bearer
replacements leave the text unchanged), then the sanitized string contains
the redaction marker [REDACTED_TOKEN] in its place. -/
theorem sanitizeErrorMessage_redacts (message stack : List Char) :
    (('\n' : Char) ∉ sanitizeErrorMessage message stack) ∧
    (∀ tok, isOpaqueToken tok = true →
      containsTok tok (sanitizeErrorMessage message stack) = false) ∧
    (∀ pre tok post,
      firstLine message = pre ++ tok ++ post →
      isOpaqueToken tok = true →
      scan1 (message ++ '\n' :: stack) = message ++ '\n' :: stack →
      scan2 (message ++ '\n' :: stack) = message ++ '\n' :: stack →
      scan3 (message ++ '\n' :: stack) = message ++ '\n' :: stack →
      containsTok redactedTokenMarker.toList (sanitizeErrorMessage message stack) = true) := by
  refine ⟨?_, ?_, ?_⟩
  · rw [sanitizeErrorMessage]
    exact firstLine_no_newline _
  · intro tok htok
    rcases hb : containsTok tok (sanitizeErrorMessage message stack) with _ | _
    · rfl
    · exfalso
      rw [sanitizeErrorMessage] at hb
      have hinf := (containsTok_eq_true_iff _ _).mp hb
      have h2 : tok <:+: scan5 (scan4 false
          (scan3 (scan2 (scan1 (message ++ '\n' :: stack))))) :=
        hinf.trans (List.takeWhile_prefix _).isInfix
      have h3 := scan5_infix_opaque htok _ h2
      exact scan4_noBad false _ (fun hfalse => absurd hfalse (by simp)) tok htok h3
  · intro pre tok post hdecomp htok h1 h2 h3
    rw [sanitizeErrorMessage, h1, h2, h3]
    obtain ⟨r, hsplit⟩ := text_split message stack
    have hflnn : ('\n' : Char) ∉ firstLine (message ++ '\n' :: stack) :=
      firstLine_no_newline _
    have h4 : scan4 false (message ++ '\n' :: stack) =
        scan4 false (firstLine (message ++ '\n' :: stack)) ++ '\n' :: scan4 false r := by
      conv_lhs => rw [hsplit]
      exact scan4_append_newline false _ hflnn r
    rw [h4, scan5_append_newline]
    have hA : ('\n' : Char) ∉ scan5 (scan4 false (firstLine (message ++ '\n' :: stack))) :=
      newline_not_mem_scan5 (newline_not_mem_scan4 hflnn false)
    rw [firstLine_append_newline hA, firstLine_text]
    obtain ⟨pre', tok', heq', htok', hlast'⟩ := normalize_decomp pre tok htok
    have hmark : redactedTokenMarker.toList <:+: scan4 false (firstLine message) := by
      apply scan4_marker false _ pre' tok' post ?_ htok' (fun _ => rfl) hlast'
      rw [hdecomp, heq']
    obtain ⟨u, v, huv⟩ := hmark
    have h5 : scan5 (scan4 false (firstLine message)) =
        scan5 u ++ (redactedTokenMarker.toList ++ scan5 v) := by
      conv_lhs => rw [← huv, List.append_assoc]
      exact scan5_append_marker u v
    rw [h5, containsTok_eq_true_iff]
    exact ⟨scan5 u, scan5 v, by rw [List.append_assoc]⟩

def c1MsgA : String := "bad token "
def c1MsgB : String := " seen"
def c1Stack : String := "at main"
def c1Message : List Char := c1MsgA.toList ++ alpha45 ++ c1MsgB.toList

theorem sanitizeErrorMessage_redacts_witness :
    (('\n' : Char) ∉ sanitizeErrorMessage c1Message c1Stack.toList) ∧
    containsTok alpha45 (sanitizeErrorMessage c1Message c1Stack.toList) = false ∧
    containsTok redactedTokenMarker.toList
      (sanitizeErrorMessage c1Message c1Stack.toList) = true :=
  ⟨(sanitizeErrorMessage_redacts c1Message c1Stack.toList).1,
   (sanitizeErrorMessage_redacts c1Message c1Stack.toList).2.1 alpha45 (by decide),
   (sanitizeErrorMessage_redacts c1Message c1Stack.toList).2.2 c1MsgA.toList alpha45
     c1MsgB.toList (by decide) (by decide)
     (by rw [scan1F_eq 100 (c1Message ++ '\n' :: c1Stack.toList) (by decide)]; decide)
     (by rw [scan2F_eq 100 (c1Message ++ '\n' :: c1Stack.toList) (by decide)]; decide)
     (by rw [scan3F_eq 100 (c1Message ++ '\n' :: c1Stack.toList) (by decide)]; decide)⟩

end Spec2Proof
